import Mathlib

/-!
Verification of the vantage recency/aggregation engine and live-change
notifier against its specification.

Shallow embedding conventions:
* Relative paths are modelled as their "/"-separated component lists
  (`RelPath := List String`); the source's repeated `split("/")` /
  `"/".join` round-trips become the identity.  No real path component
  contains a slash.
* Timestamps are naturals.  The source stores
  `datetime.fromtimestamp(mtime).isoformat()` strings and sorts them
  lexicographically; that encoding is strictly monotone in `mtime`, so
  sorting by the natural is order-equivalent.
* The filesystem visible below a served root is a list of file entries
  (path, mtime, regular-file flag); directory-walk primitives become
  filters expressing exactly the source's accept/prune conditions, and
  `os.stat` becomes a lookup in that list.
* Fallible subprocess invocations (`git ls-files`, `git status`,
  `git log`) are `Except Unit` values in the environment; the source's
  `contextlib.suppress` / `try: ... except: ...` wrappers become the
  `Except`-eliminating accessors below.  Failed parallel walk workers
  are recorded as the set of top-level directory names whose worker
  raised.
* The embedding fixes the served root at the git working-directory root
  (`repo_path == repo.working_dir`), the common case; the
  subdirectory-mounted variant of `_get_repo_relative_path` is the
  identity there.
-/

abbrev RelPath := List String

/-- One merged record of `get_recently_changed_files`
(`git_service.py`): the dict
`{path, date, author_name, message, hexsha, untracked}`. -/
structure ChangeRec where
  path : RelPath
  date : Nat
  author_name : String
  message : String
  hexsha : String
  untracked : Bool
deriving DecidableEq, Repr

/-- A file entry visible to the directory walks: relative path, mtime,
and whether `os.stat` reports a regular file (`S_ISREG`). -/
structure FsFile where
  path : RelPath
  mtime : Nat
  isReg : Bool
deriving DecidableEq, Repr

/-- One parsed `git status --porcelain=v1` line: the two status
characters `line[:2]` and the stripped path `line[3:]`. -/
structure StatusLine where
  xy : String
  path : RelPath
deriving DecidableEq, Repr

/-- The commit tuple extracted from a `git log`
`%H%x00%an%x00%ct%x00%s` line. -/
structure CommitInfo where
  hexsha : String
  authorName : String
  tsRaw : String
  message : String
deriving DecidableEq, Repr

/-- One line of `git log --name-only` output as the parser in
`get_recently_changed_files` consumes it: a commit line (carrying
`none` when it splits into fewer than four fields and is ignored), or a
file-path line (already stripped; `[]` models the empty line that is
skipped). -/
inductive LogLine where
  | commitLine (info : Option CommitInfo)
  | fileLine (p : RelPath)
deriving DecidableEq, Repr

/-- The environment of one git-backed `GitService`
(`repo` non-`None`): exclusion set, visible filesystem, and the raw
outcomes of the three git subprocess invocations, plus the set of
top-level directories whose parallel walk worker failed. -/
structure RepoEnv where
  excludeDirs : List String
  files : List FsFile
  lsFiles : Except Unit (List RelPath)
  statusLines : Except Unit (List StatusLine)
  logLines : Except Unit (List LogLine)
  failedTopDirs : List String

/-- Python's `str.lower`, implemented over the character list so that
it is kernel-evaluable. -/
def lowerStr (s : String) : String := ⟨s.data.map Char.toLower⟩

/-- Python's `str.endswith`, implemented over the character lists so
that it is kernel-evaluable. -/
def strEndsWith (s post : String) : Bool :=
  (s.data.reverse.take post.data.length) == post.data.reverse

/-- `name.startswith(".")`. -/
def isHiddenName (s : String) : Bool :=
  match s.data with
  | [] => false
  | c :: _ => c == '.'

/-- `_matches_ext`: the lowered full relative path ends with one of the
(lowered) extensions.  Extensions contain no slash, so this is a test
on the final path component. -/
def pathMatchesExt (extLower : List String) (p : RelPath) : Bool :=
  match p.getLast? with
  | some name => extLower.any (fun e => strEndsWith (lowerStr name) e)
  | none => false

/-- `should_skip`: some component of the path is an excluded directory
name. -/
def shouldSkip (exclude : List String) (p : RelPath) : Bool :=
  p.any (fun part => decide (part ∈ exclude))

/-- The directory components (all but the last) are neither hidden nor
excluded — the condition enforced by pruning `dirnames` during walks
and by the top-level `os.scandir` directory filter. -/
def dirPartsVisible (exclude : List String) (p : RelPath) : Bool :=
  p.dropLast.all (fun c => !(isHiddenName c) && !(decide (c ∈ exclude)))

/-- `any(p.startswith(".") for p in parts[:-1])`. -/
def hasHiddenDirPart (p : RelPath) : Bool := p.dropLast.any isHiddenName

/-- `os.stat` of a relative path under the root: mtime and
regular-file flag, `none` on `OSError`. -/
def statPath (files : List FsFile) (p : RelPath) : Option (Nat × Bool) :=
  (files.find? (fun f => decide (f.path = p))).map (fun f => (f.mtime, f.isReg))

/-- An untracked record: empty author/message/hexsha,
`untracked=True`. -/
def mkUntrackedRec (p : RelPath) (mtime : Nat) : ChangeRec :=
  { path := p, date := mtime, author_name := "", message := "", hexsha := "", untracked := true }

/-- A tracked record built in the git-log merge pass: date is the
filesystem mtime, author/message/hexsha come from the current commit
tuple (`author_name or "Unknown"`). -/
def mkTrackedRec (p : RelPath) (mtime : Nat) (i : CommitInfo) : ChangeRec :=
  { path := p, date := mtime,
    author_name := if i.authorName = "" then "Unknown" else i.authorName,
    message := i.message, hexsha := i.hexsha, untracked := false }

/-- `_build_tracked_set`: `git ls-files` lines, an empty set when the
invocation fails (`contextlib.suppress`). -/
def buildTrackedSet (env : RepoEnv) : List RelPath :=
  match env.lsFiles with
  | .ok l => l
  | .error _ => []

/-- `_git_status_ita` / `_get_git_status_porcelain`: status lines, empty
on failure. -/
def gitStatusLines (env : RepoEnv) : List StatusLine :=
  match env.statusLines with
  | .ok l => l
  | .error _ => []

/-- `_git_log`: parsed log lines, empty on failure. -/
def gitLogLines (env : RepoEnv) : List LogLine :=
  match env.logLines with
  | .ok l => l
  | .error _ => []

/-- `_find_intent_to_add_files`: the paths of status lines whose two
status characters are `" A"`. -/
def findIntentToAddFiles (statusLines : List StatusLine) : List RelPath :=
  (statusLines.filter (fun l => decide (l.xy = " A"))).map (fun l => l.path)

/-- A path lies strictly below one of the top-level directories whose
walk worker failed, so the parallel scan surfaced nothing for it
(`fut.result()` inside `contextlib.suppress`). -/
def underFailedDir (failed : List String) (p : RelPath) : Bool :=
  match p with
  | d :: _ :: _ => decide (d ∈ failed)
  | _ => false

/-- Steps 1–3 of `get_recently_changed_files`: the top-level scandir
pass plus the parallel per-directory walks.  A file is surfaced iff its
worker did not fail, it matches an extension, it is not in the tracked
set, and every directory component on the way down is neither hidden
nor excluded (the walk prunes `dirnames`; the filename itself is not
filtered for hiddenness, matching the source). -/
def walkResults (env : RepoEnv) (extLower : List String) (tracked : List RelPath) : List ChangeRec :=
  (env.files.filter (fun f =>
      !(underFailedDir env.failedTopDirs f.path)
        && pathMatchesExt extLower f.path
        && !(decide (f.path ∈ tracked))
        && dirPartsVisible env.excludeDirs f.path)).map
    (fun f => mkUntrackedRec f.path f.mtime)

/-- The intent-to-add merge pass of Step 4 (`git_service.py` lines
761–791): each intent-to-add path not yet seen, matching an extension,
not under an excluded or hidden directory, and statable is appended as
an untracked record. -/
def itaStep (files : List FsFile) (exclude : List String) (extLower : List String) :
    List RelPath → List ChangeRec → List RelPath → List ChangeRec × List RelPath
  | [], results, seen => (results, seen)
  | p :: rest, results, seen =>
    if p ∈ seen then itaStep files exclude extLower rest results seen
    else if !(pathMatchesExt extLower p) then itaStep files exclude extLower rest results seen
    else if shouldSkip exclude p then itaStep files exclude extLower rest results seen
    else if hasHiddenDirPart p then itaStep files exclude extLower rest results seen
    else
      match statPath files p with
      | some st => itaStep files exclude extLower rest (results ++ [mkUntrackedRec p st.1]) (seen ++ [p])
      | none => itaStep files exclude extLower rest results seen

/-- The tracked-file merge pass of Step 4 (`git_service.py` lines
793–843): stream the `git log --name-only` lines keeping the current
commit tuple; each file line under a live commit that is non-empty, not
excluded, matching an extension, unseen, and a statable regular file is
appended as a tracked record whose date is the filesystem mtime and
whose author/message/hexsha come from the current commit
(`author_name or "Unknown"`). -/
def logStep (files : List FsFile) (exclude : List String) (extLower : List String) :
    List LogLine → Option CommitInfo → List ChangeRec → List RelPath → List ChangeRec × List RelPath
  | [], _, results, seen => (results, seen)
  | .commitLine info :: rest, cur, results, seen =>
    (match info with
     | some i => logStep files exclude extLower rest (some i) results seen
     | none => logStep files exclude extLower rest cur results seen)
  | .fileLine p :: rest, cur, results, seen =>
    (match cur with
     | none => logStep files exclude extLower rest none results seen
     | some i =>
       if p = [] then logStep files exclude extLower rest (some i) results seen
       else if shouldSkip exclude p then logStep files exclude extLower rest (some i) results seen
       else if !(pathMatchesExt extLower p) then logStep files exclude extLower rest (some i) results seen
       else if p ∈ seen then logStep files exclude extLower rest (some i) results seen
       else
         match statPath files p with
         | some st =>
           if st.2 then
             logStep files exclude extLower rest (some i)
               (results ++ [mkTrackedRec p st.1 i]) (seen ++ [p])
           else logStep files exclude extLower rest (some i) results seen
         | none => logStep files exclude extLower rest (some i) results seen)

/-- Step 5 (`git_service.py` lines 845–877): every tracked-set member
still unseen — staged but never committed — that matches an extension,
is not excluded or under a hidden directory, and stats as a regular
file is re-added as an untracked record. -/
def reconStep (files : List FsFile) (exclude : List String) (extLower : List String) :
    List RelPath → List ChangeRec → List RelPath → List ChangeRec × List RelPath
  | [], results, seen => (results, seen)
  | p :: rest, results, seen =>
    if p ∈ seen then reconStep files exclude extLower rest results seen
    else if !(pathMatchesExt extLower p) then reconStep files exclude extLower rest results seen
    else if shouldSkip exclude p then reconStep files exclude extLower rest results seen
    else if hasHiddenDirPart p then reconStep files exclude extLower rest results seen
    else
      match statPath files p with
      | some st =>
        if st.2 then reconStep files exclude extLower rest (results ++ [mkUntrackedRec p st.1]) (seen ++ [p])
        else reconStep files exclude extLower rest results seen
      | none => reconStep files exclude extLower rest results seen

/-- Sort-key comparison of the final
`results.sort(key=lambda r: r["date"], reverse=True)`: non-increasing
dates. -/
def dateDescLe (a b : ChangeRec) : Bool := decide (b.date ≤ a.date)

/-- The stable descending sort by date. -/
def sortByDateDesc (l : List ChangeRec) : List ChangeRec := l.mergeSort dateDescLe

/-- Shared tail of every mode: sort by date descending and trim to
`limit`. -/
def finalize (l : List ChangeRec) (limit : Nat) : List ChangeRec :=
  (sortByDateDesc l).take limit

/-- Step 4/5 merge of `get_recently_changed_files` before the final
sort/trim: walk results seed the result list and the seen-path set,
then the intent-to-add pass, the git-log pass, and the tracked-set
reconciliation pass append in that order. -/
def mergedResults (env : RepoEnv) (extensions : List String) : List ChangeRec :=
  let extLower := extensions.map (fun e => lowerStr e)
  let tracked := buildTrackedSet env
  let walk := walkResults env extLower tracked
  let seen0 := walk.map (fun r => r.path)
  let s1 := itaStep env.files env.excludeDirs extLower
    (findIntentToAddFiles (gitStatusLines env)) walk seen0
  let s2 := logStep env.files env.excludeDirs extLower (gitLogLines env) none s1.1 s1.2
  let s3 := reconStep env.files env.excludeDirs extLower tracked s2.1 s2.2
  s3.1

/-- `get_recently_changed_files` on a git-backed root (cache aside):
merge all sources, sort strictly by date descending, trim to
`limit`. -/
def getRecentRepo (env : RepoEnv) (limit : Nat) (extensions : List String) : List ChangeRec :=
  finalize (mergedResults env extensions) limit

/-- One discovered child git repository under a non-git root
(`_discover_child_git_repos`): its directory name and its own
git-backed environment (`GitService(child_path)` with
`child_path/.git` present). -/
structure ContainerChild where
  name : String
  env : RepoEnv

/-- One `os.scandir` entry of a non-git root as
`_get_recent_files_from_child_repos` consumes it: a top-level regular
file, or a subdirectory together with the files its recursive walk can
reach (their paths include the subdirectory name as first
component). -/
inductive TopEntry where
  | fileEntry (name : String) (mtime : Nat)
  | dirEntry (name : String) (files : List FsFile)

/-- Environment of a root that is not itself a git repository but
contains child repositories. -/
structure ContainerEnv where
  excludeDirs : List String
  children : List ContainerChild
  topEntries : List TopEntry

/-- Per-child contribution in `_get_recent_files_from_child_repos`:
the child's own `get_recently_changed_files` result with every path
prefixed by the child's directory name. -/
def childBlock (limit : Nat) (extensions : List String) (c : ContainerChild) : List ChangeRec :=
  (getRecentRepo c.env limit extensions).map (fun r => { r with path := c.name :: r.path })

/-- Walk-pruning condition for files inside a non-git subdirectory of a
container root: every directory component below the subdirectory itself
is neither hidden nor excluded. -/
def subdirPartsVisible (exclude : List String) (p : RelPath) : Bool :=
  (p.drop 1).dropLast.all (fun c => !(isHiddenName c) && !(decide (c ∈ exclude)))

/-- Per-scandir-entry contribution in
`_get_recent_files_from_child_repos`: a matching top-level file becomes
one untracked record; a subdirectory that is not hidden, excluded, or a
child repository contributes its walked matching files as untracked
records. -/
def topEntryBlock (env : ContainerEnv) (extLower : List String) : TopEntry → List ChangeRec
  | .fileEntry n m =>
    if pathMatchesExt extLower [n] then [mkUntrackedRec [n] m] else []
  | .dirEntry n fs =>
    if isHiddenName n || decide (n ∈ env.excludeDirs)
        || decide (n ∈ env.children.map (fun c => c.name)) then []
    else
      (fs.filter (fun f =>
          pathMatchesExt extLower f.path && subdirPartsVisible env.excludeDirs f.path)).map
        (fun f => mkUntrackedRec f.path f.mtime)

/-- `_get_recent_files_from_child_repos`: concatenate all child
contributions and all top-entry contributions, then sort by date
descending and trim to `limit`. -/
def getRecentContainer (env : ContainerEnv) (limit : Nat) (extensions : List String) :
    List ChangeRec :=
  let extLower := extensions.map (fun e => lowerStr e)
  let allResults := (env.children.map (childBlock limit extensions)).flatten
    ++ (env.topEntries.map (topEntryBlock env extLower)).flatten
  finalize allResults limit

/-- The `os.walk` branch of `_find_untracked_md_files` (no git
repository at all): every visible `.md` file becomes an untracked
record; the helper sorts its own output by date descending.  Note the
helper hard-codes the `.md` suffix. -/
def findUntrackedMdWalk (exclude : List String) (files : List FsFile) : List ChangeRec :=
  sortByDateDesc
    ((files.filter (fun f =>
        pathMatchesExt [".md"] f.path && dirPartsVisible exclude f.path)).map
      (fun f => mkUntrackedRec f.path f.mtime))

/-- `get_recently_changed_files` on a plain un-versioned root with no
child repositories: filesystem walk only, re-filtered by `should_skip`,
sorted and trimmed. -/
def getRecentPlain (exclude : List String) (files : List FsFile) (limit : Nat) : List ChangeRec :=
  finalize
    ((findUntrackedMdWalk exclude files).filter (fun r => !(shouldSkip exclude r.path)))
    limit

/-- The trichotomy resolved at the top of `get_recently_changed_files`:
a git-backed root, a non-git root containing child repositories, or a
plain directory. -/
inductive RootEnv where
  | repoRoot (env : RepoEnv)
  | containerRoot (env : ContainerEnv)
  | plainRoot (excludeDirs : List String) (files : List FsFile)

/-- `get_recently_changed_files` (cache aside), dispatching on the
trichotomy.  The plain branch ignores the `extensions` argument because
`_find_untracked_md_files` hard-codes `.md`, as in the source. -/
def getRecentlyChangedFiles : RootEnv → Nat → List String → List ChangeRec
  | .repoRoot e, limit, exts => getRecentRepo e limit exts
  | .containerRoot e, limit, exts => getRecentContainer e limit exts
  | .plainRoot ex fs, limit, _ => getRecentPlain ex fs limit

/-- `_recent_files_cache` key: `(str(self.repo_path), limit,
tuple(extensions))`. -/
abbrev CacheKey := String × Nat × List String

/-- The process-wide `_recent_files_cache` mapping keys to
`(stored-at-instant, results)`.  Python-dict semantics are modelled as
an association list updated by `cacheStore`. -/
abbrev RecentCache := List (CacheKey × (Nat × List ChangeRec))

/-- `_RECENT_FILES_TTL` (seconds; time is modelled in whole
seconds). -/
def RECENT_FILES_TTL : Nat := 2

/-- `clear_recent_files_cache`: flush the entire cache. -/
def clearRecentFilesCache (_c : RecentCache) : RecentCache := []

/-- `_recent_files_cache.get(cache_key)`. -/
def cacheLookup (c : RecentCache) (k : CacheKey) : Option (Nat × List ChangeRec) :=
  (c.find? (fun e => decide (e.1 = k))).map (fun e => e.2)

/-- `_recent_files_cache[cache_key] = (ts, data)`: dictionary
assignment, i.e. rebind the key. -/
def cacheStore (c : RecentCache) (k : CacheKey) (v : Nat × List ChangeRec) : RecentCache :=
  (k, v) :: c.filter (fun e => !(decide (e.1 = k)))

/-- The cached entry point `get_recently_changed_files`: on a hit whose
entry is younger than the TTL, return the stored list without
recomputing; otherwise compute, store (stamped with the second
`time.monotonic()` reading, taken after the computation), and return.
`nowCheck`/`nowStore` are the two monotonic-clock readings. -/
def getRecentlyChangedFilesCached (root : RootEnv) (repoPathStr : String)
    (limit : Nat) (extensions : List String)
    (cache : RecentCache) (nowCheck nowStore : Nat) : List ChangeRec × RecentCache :=
  let key : CacheKey := (repoPathStr, limit, extensions)
  match cacheLookup cache key with
  | some (ts, data) =>
    if nowCheck - ts < RECENT_FILES_TTL then (data, cache)
    else
      let r := getRecentlyChangedFiles root limit extensions
      (r, cacheStore cache key (nowStore, r))
  | none =>
    let r := getRecentlyChangedFiles root limit extensions
    (r, cacheStore cache key (nowStore, r))

/-- `_WATCHED_EXTENSIONS` in `watcher.py`. -/
def WATCHED_EXTENSIONS : List String := [".md"]

/-- `_GIT_STATE_FILES` in `watcher.py`. -/
def GIT_STATE_FILES : List String :=
  ["index", "HEAD", "MERGE_HEAD", "REBASE_HEAD", "CHERRY_PICK_HEAD"]

def isGitStateFileName (s : String) : Bool := decide (s ∈ GIT_STATE_FILES)

/-- `parts[-1] in _GIT_STATE_FILES` guarded against the empty path. -/
def lastIsStateFile (parts : List String) : Bool :=
  match parts.getLast? with
  | some l => isGitStateFileName l
  | none => false

/-- `_is_git_state_change`: at least two components, first component is
`.git`, last component is a state-marker filename. -/
def isGitStateChange (p : RelPath) : Bool :=
  decide (2 ≤ p.length) && decide (p.head? = some ".git") && lastIsStateFile p

/-- `_is_relevant`: the lowered path ends with a watched extension, or
the path is a git state change (same component test as
`_is_git_state_change`, duplicated in the source). -/
def isRelevant (p : RelPath) : Bool :=
  pathMatchesExt WATCHED_EXTENSIONS p
    || (decide (2 ≤ p.length) && decide (p.head? = some ".git") && lastIsStateFile p)

/-- Modelled from the spec: the third-party default event filter the
watcher's `_GitAwareFilter` extends is not part of this repository; the
specification describes it as rejecting "other conventionally-excluded
directory names".  It is modelled as rejecting any absolute path with a
component among the conventional ignore-directory names (the
third-party basename patterns for editor temp files are outside the
claims considered here). -/
def defaultIgnoreDirNames : List String :=
  ["__pycache__", ".git", ".hg", ".svn", ".tox", ".venv", "site-packages",
   ".idea", "node_modules"]

/-- Modelled from the spec (see `defaultIgnoreDirNames`): the
third-party default filter's acceptance on a path's component list. -/
def defaultFilterAccepts (parts : List String) : Bool :=
  parts.all (fun c => !(decide (c ∈ defaultIgnoreDirNames)))

/-- `next(i for i, p in enumerate(parts) if p == ".git")`: index of the
first `.git` component, if any. -/
def firstGitIdx : List String → Option Nat
  | [] => none
  | c :: rest =>
    if c = ".git" then some 0 else (firstGitIdx rest).map (fun i => i + 1)

/-- `_GitAwareFilter.__call__` on the absolute path's component list:
paths without a `.git` component go to the default filter; paths with
one are accepted iff they are exactly one level below the first `.git`
component and their filename is a state marker. -/
def gitAwareFilterAccepts (parts : List String) : Bool :=
  match firstGitIdx parts with
  | none => defaultFilterAccepts parts
  | some gitIdx => decide (parts.length = gitIdx + 2) && lastIsStateFile parts

/-- The complete event filtering applied before the debounce state
machine sees a changed path: the low-level watch filter on the absolute
path (`rootParts ++ p`) combined with the `_is_relevant` check on the
root-relative path. -/
def combinedEventAccepts (rootParts : List String) (p : RelPath) : Bool :=
  gitAwareFilterAccepts (rootParts ++ p) && isRelevant p

/-- One notification message (`{"type": "files_changed", "paths": ...,
"repo"?: ...}`). -/
structure WatchMsg where
  paths : List RelPath
  repoName : Option String
deriving DecidableEq, Repr

/-- `"/".join` of a component path, for the string sort order used by
`sorted(pending)`. -/
def joinPath (p : RelPath) : String := String.intercalate "/" p

/-- Lexicographic code-point comparison of character lists: Python's
string `<=` used by `sorted`. -/
def charListLe : List Char → List Char → Bool
  | [], _ => true
  | _ :: _, [] => false
  | a :: as, b :: bs =>
    if a.toNat < b.toNat then true
    else if b.toNat < a.toNat then false
    else charListLe as bs

def pathStringLe (a b : RelPath) : Bool := charListLe (joinPath a).data (joinPath b).data

/-- `sorted(pending)` where `pending` is a set: the de-duplicated paths
in ascending string order. -/
def sortedUniquePaths (l : List RelPath) : List RelPath :=
  (l.dedup).mergeSort pathStringLe

/-- `_coalesce_and_broadcast`: nothing happens on an empty batch;
otherwise the recent-files cache is cleared first when some pending
path is a git state change, and exactly one message carrying the
sorted, de-duplicated paths (and the repository name, when watching
multiple repositories) is broadcast. -/
def coalesceAndBroadcast (pending : List RelPath) (repoName : Option String)
    (cache : RecentCache) : List WatchMsg × RecentCache :=
  if pending = [] then ([], cache)
  else
    let cache' :=
      if pending.any isGitStateChange then clearRecentFilesCache cache else cache
    ([{ paths := sortedUniquePaths pending, repoName := repoName }], cache')

/-- The per-repository debounce state of `watch_repo`: the pending path
set and the instant the current batch started (if one is open). -/
structure WatchState where
  pending : List RelPath
  batchStart : Option Nat
deriving Repr

/-- Handling of one changed path in the `awatch` loop: relevant paths
are added to the pending set, everything else is dropped. -/
def addEvent (s : WatchState) (p : RelPath) : WatchState :=
  if isRelevant p then
    (if p ∈ s.pending then s else { s with pending := s.pending ++ [p] })
  else s

/-- `flush` in `watch_repo`: snapshot the pending set, clear it and the
batch start, and run `_coalesce_and_broadcast` on the snapshot. -/
def flushBatch (s : WatchState) (repoName : Option String) (cache : RecentCache) :
    WatchState × RecentCache × List WatchMsg :=
  let out := coalesceAndBroadcast s.pending repoName cache
  ({ pending := [], batchStart := none }, out.2, out.1)

/-- One observer (an open WebSocket) of `ConnectionManager`, abstracted
to an identity. -/
structure Observer where
  obsId : Nat
deriving DecidableEq, Repr

/-- Outcome of one `ConnectionManager.broadcast` call: the observers a
delivery was attempted to (in order), how many sends succeeded, and the
connection list after dead observers were pruned. -/
structure BroadcastResult where
  attempted : List Observer
  sentCount : Nat
  remaining : List Observer
deriving DecidableEq, Repr

/-- `ConnectionManager.broadcast(message)`: with no connections the
broadcast is skipped; otherwise every connection is tried in order
(collecting the failures in `dead`), and afterwards each dead
connection is removed from the list.  `sendOk o` tells whether
`o.send_json(message)` succeeds for this message. -/
def broadcast (conns : List Observer) (sendOk : Observer → Bool) : BroadcastResult :=
  if conns = [] then { attempted := [], sentCount := 0, remaining := conns }
  else
    let dead := conns.filter (fun c => !(sendOk c))
    { attempted := conns,
      sentCount := (conns.filter sendOk).length,
      remaining := dead.foldl (fun acc d => acc.erase d) conns }

/-- The (commit, path) associations the git-log merge loop can see:
each file line paired with the commit tuple current at that point. -/
def logPairs : List LogLine → Option CommitInfo → List (CommitInfo × RelPath)
  | [], _ => []
  | .commitLine (some i) :: rest, _ => logPairs rest (some i)
  | .commitLine none :: rest, cur => logPairs rest cur
  | .fileLine _ :: rest, none => logPairs rest none
  | .fileLine p :: rest, some i => (i, p) :: logPairs rest (some i)

/-- The file-path lines of the log output. -/
def logFilePaths : List LogLine → List RelPath
  | [] => []
  | .commitLine _ :: rest => logFilePaths rest
  | .fileLine p :: rest => p :: logFilePaths rest

/-- Lowered extension list of `get_recently_changed_files`. -/
def repoExtL (exts : List String) : List String := exts.map (fun e => lowerStr e)

/-- The walk-derived seed of the merge (Step 2/3 output). -/
def repoWalk (env : RepoEnv) (exts : List String) : List ChangeRec :=
  walkResults env (repoExtL exts) (buildTrackedSet env)

/-- The intent-to-add path list used by the merge. -/
def repoIta (env : RepoEnv) : List RelPath := findIntentToAddFiles (gitStatusLines env)

/-- State after the intent-to-add pass. -/
def repoS1 (env : RepoEnv) (exts : List String) : List ChangeRec × List RelPath :=
  itaStep env.files env.excludeDirs (repoExtL exts) (repoIta env) (repoWalk env exts)
    ((repoWalk env exts).map ChangeRec.path)

/-- State after the git-log pass. -/
def repoS2 (env : RepoEnv) (exts : List String) : List ChangeRec × List RelPath :=
  logStep env.files env.excludeDirs (repoExtL exts) (gitLogLines env) none
    (repoS1 env exts).1 (repoS1 env exts).2

/-- State after the tracked-set reconciliation pass. -/
def repoS3 (env : RepoEnv) (exts : List String) : List ChangeRec × List RelPath :=
  reconStep env.files env.excludeDirs (repoExtL exts) (buildTrackedSet env)
    (repoS2 env exts).1 (repoS2 env exts).2

/-- The `os.scandir` entry name. -/
def topEntryName : TopEntry → String
  | .fileEntry n _ => n
  | .dirEntry n _ => n

/-- Filesystem well-formedness of one container scandir entry: a
top-level file's name is not also a child repository's directory name;
a subdirectory's reachable files all start with the subdirectory name,
have at least two components, and have pairwise distinct paths. -/
def topEntryWFb (childNames : List String) : TopEntry → Bool
  | .fileEntry n _ => !(decide (n ∈ childNames))
  | .dirEntry n fs =>
    fs.all (fun f => decide (f.path.head? = some n))
      && decide ((fs.map FsFile.path).Nodup)

/-- Filesystem well-formedness of a container root: distinct child
names with well-formed child filesystems, distinct scandir entry names,
and well-formed entries. -/
def containerWFb (env : ContainerEnv) : Bool :=
  decide ((env.children.map (fun c => c.name)).Nodup)
    && env.children.all (fun c => decide ((c.env.files.map FsFile.path).Nodup))
    && decide ((env.topEntries.map topEntryName).Nodup)
    && env.topEntries.all (topEntryWFb (env.children.map (fun c => c.name)))

/-- Filesystem well-formedness of a served root: the visible file
entries have pairwise distinct relative paths (per repository in the
container case). -/
def rootWFb : RootEnv → Bool
  | .repoRoot e => decide ((e.files.map FsFile.path).Nodup)
  | .containerRoot e => containerWFb e
  | .plainRoot _ fs => decide ((fs.map FsFile.path).Nodup)

/-- Concrete git-backed environment used by the witnesses: one
untracked file, one committed file, one intent-to-add file. -/
def wEnvRepo : RepoEnv :=
  { excludeDirs := ["node_modules"],
    files := [⟨["notes.md"], 10, true⟩, ⟨["docs", "a.md"], 5, true⟩, ⟨["b.md"], 7, true⟩],
    lsFiles := .ok [["docs", "a.md"], ["b.md"]],
    statusLines := .ok [⟨" A", ["b.md"]⟩],
    logLines := .ok [.commitLine (some ⟨"abc", "Ann", "100", "msg"⟩),
      .fileLine ["docs", "a.md"]],
    failedTopDirs := [] }

/-- Concrete container environment used by the C2 witness: one child
repository, a top-level file and a plain subdirectory. -/
def wEnvContainer : ContainerEnv :=
  { excludeDirs := ["node_modules"],
    children := [⟨"blog", wEnvRepo⟩],
    topEntries := [.fileEntry "readme.md" 9, .dirEntry "blog" [],
      .dirEntry "misc" [⟨["misc", "x.md"], 7, true⟩]] }

/-- The event-filter acceptance condition exactly as claim C8 states
it (for comparison with the implementation): accept when the extension
is watched, or when the filename is a state marker exactly one segment
below a control directory — wherever that control directory sits in
the tree. -/
def specClaimedAccepts (p : RelPath) : Bool :=
  pathMatchesExt WATCHED_EXTENSIONS p
    || ((match p.dropLast.getLast? with
         | some g => decide (g = ".git")
         | none => false)
        && lastIsStateFile p)

theorem dateDescLe_trans (a b c : ChangeRec) (h1 : dateDescLe a b = true)
    (h2 : dateDescLe b c = true) : dateDescLe a c = true := by
  simp only [dateDescLe, decide_eq_true_eq] at *
  omega

theorem dateDescLe_total (a b : ChangeRec) : (dateDescLe a b || dateDescLe b a) = true := by
  simp only [dateDescLe, Bool.or_eq_true, decide_eq_true_eq]
  omega

theorem finalize_length_le (l : List ChangeRec) (limit : Nat) :
    (finalize l limit).length ≤ limit := by
  simp only [finalize, List.length_take]
  omega

theorem finalize_pairwise (l : List ChangeRec) (limit : Nat) :
    (finalize l limit).Pairwise (fun a b => b.date ≤ a.date) := by
  have hs : (sortByDateDesc l).Pairwise (fun a b => dateDescLe a b = true) :=
    List.sorted_mergeSort dateDescLe_trans dateDescLe_total l
  have hp : (sortByDateDesc l).Pairwise (fun a b => b.date ≤ a.date) :=
    hs.imp (fun h => by simpa [dateDescLe] using h)
  exact List.Pairwise.sublist (List.take_sublist limit (sortByDateDesc l)) hp

theorem mem_of_mem_finalize {l : List ChangeRec} {limit : Nat} {r : ChangeRec}
    (h : r ∈ finalize l limit) : r ∈ l := by
  have h2 : r ∈ sortByDateDesc l := List.take_subset limit (sortByDateDesc l) h
  exact (List.mergeSort_perm l dateDescLe).mem_iff.mp h2

theorem finalize_nodup {l : List ChangeRec} (limit : Nat)
    (h : (l.map ChangeRec.path).Nodup) :
    ((finalize l limit).map ChangeRec.path).Nodup := by
  have hperm : (sortByDateDesc l).Perm l := List.mergeSort_perm l dateDescLe
  have hs : ((sortByDateDesc l).map ChangeRec.path).Nodup :=
    ((hperm.map ChangeRec.path).nodup_iff).mpr h
  exact List.Nodup.sublist
    (List.Sublist.map ChangeRec.path (List.take_sublist limit (sortByDateDesc l))) hs

theorem itaStep_spec (files : List FsFile) (exclude : List String) (ext : List String) (l : List RelPath) :
    ∀ (res : List ChangeRec) (seen : List RelPath),
    ∃ t : List ChangeRec,
      (itaStep files exclude ext l res seen).1 = res ++ t ∧
      (itaStep files exclude ext l res seen).2 = seen ++ t.map ChangeRec.path ∧
      (t.map ChangeRec.path).Nodup ∧
      ∀ r ∈ t, r.path ∈ l ∧ r.path ∉ seen ∧ r.untracked = true ∧
        r.author_name = "" ∧ r.message = "" ∧ r.hexsha = "" ∧
        ∃ st, statPath files r.path = some st ∧ r.date = st.1 := by
  induction l with
  | nil =>
    intro res seen
    exact ⟨[], by simp [itaStep], by simp [itaStep], by simp, by simp⟩
  | cons p rest ih =>
    intro res seen
    by_cases h1 : p ∈ seen
    · obtain ⟨t, e1, e2, nd, hp⟩ := ih res seen
      refine ⟨t, by simpa [itaStep, h1] using e1, by simpa [itaStep, h1] using e2, nd, ?_⟩
      intro r hr
      obtain ⟨hl, hrest⟩ := hp r hr
      exact ⟨List.mem_cons_of_mem _ hl, hrest⟩
    · cases hm : pathMatchesExt ext p with
      | false =>
        obtain ⟨t, e1, e2, nd, hp⟩ := ih res seen
        refine ⟨t, by simpa [itaStep, h1, hm] using e1,
          by simpa [itaStep, h1, hm] using e2, nd, ?_⟩
        intro r hr
        obtain ⟨hl, hrest⟩ := hp r hr
        exact ⟨List.mem_cons_of_mem _ hl, hrest⟩
      | true =>
        cases hsk : shouldSkip exclude p with
        | true =>
          obtain ⟨t, e1, e2, nd, hp⟩ := ih res seen
          refine ⟨t, by simpa [itaStep, h1, hm, hsk] using e1,
            by simpa [itaStep, h1, hm, hsk] using e2, nd, ?_⟩
          intro r hr
          obtain ⟨hl, hrest⟩ := hp r hr
          exact ⟨List.mem_cons_of_mem _ hl, hrest⟩
        | false =>
          cases hh : hasHiddenDirPart p with
          | true =>
            obtain ⟨t, e1, e2, nd, hp⟩ := ih res seen
            refine ⟨t, by simpa [itaStep, h1, hm, hsk, hh] using e1,
              by simpa [itaStep, h1, hm, hsk, hh] using e2, nd, ?_⟩
            intro r hr
            obtain ⟨hl, hrest⟩ := hp r hr
            exact ⟨List.mem_cons_of_mem _ hl, hrest⟩
          | false =>
            cases hst : statPath files p with
            | none =>
              obtain ⟨t, e1, e2, nd, hp⟩ := ih res seen
              refine ⟨t, by simpa [itaStep, h1, hm, hsk, hh, hst] using e1,
                by simpa [itaStep, h1, hm, hsk, hh, hst] using e2, nd, ?_⟩
              intro r hr
              obtain ⟨hl, hrest⟩ := hp r hr
              exact ⟨List.mem_cons_of_mem _ hl, hrest⟩
            | some st =>
              obtain ⟨t, e1, e2, nd, hp⟩ :=
                ih (res ++ [mkUntrackedRec p st.1]) (seen ++ [p])
              refine ⟨mkUntrackedRec p st.1 :: t, ?_, ?_, ?_, ?_⟩
              · have : (itaStep files exclude ext (p :: rest) res seen).1 =
                    (itaStep files exclude ext rest (res ++ [mkUntrackedRec p st.1]) (seen ++ [p])).1 := by
                  simp [itaStep, h1, hm, hsk, hh, hst]
                rw [this, e1, List.append_assoc]
                rfl
              · have : (itaStep files exclude ext (p :: rest) res seen).2 =
                    (itaStep files exclude ext rest (res ++ [mkUntrackedRec p st.1]) (seen ++ [p])).2 := by
                  simp [itaStep, h1, hm, hsk, hh, hst]
                rw [this, e2, List.append_assoc]
                rfl
              · simp only [List.map_cons, List.nodup_cons]
                constructor
                · intro hmem
                  obtain ⟨r, hr, hrp⟩ := List.mem_map.mp hmem
                  obtain ⟨_, hnsn, _⟩ := hp r hr
                  exact hnsn (by rw [hrp]; exact List.mem_append_right seen (by simp [mkUntrackedRec]))
                · exact nd
              · intro r hr
                rcases List.mem_cons.mp hr with hhd | htl
                · subst hhd
                  exact ⟨List.mem_cons_self _ _, h1, rfl, rfl, rfl, rfl, st, hst, rfl⟩
                · obtain ⟨hl, hnsn, hrest⟩ := hp r htl
                  refine ⟨List.mem_cons_of_mem _ hl, fun hc => hnsn (List.mem_append_left _ hc), hrest⟩

theorem reconStep_spec (files : List FsFile) (exclude : List String) (ext : List String) (l : List RelPath) :
    ∀ (res : List ChangeRec) (seen : List RelPath),
    ∃ t : List ChangeRec,
      (reconStep files exclude ext l res seen).1 = res ++ t ∧
      (reconStep files exclude ext l res seen).2 = seen ++ t.map ChangeRec.path ∧
      (t.map ChangeRec.path).Nodup ∧
      ∀ r ∈ t, r.path ∈ l ∧ r.path ∉ seen ∧ r.untracked = true ∧
        r.author_name = "" ∧ r.message = "" ∧ r.hexsha = "" ∧
        ∃ st, statPath files r.path = some st ∧ st.2 = true ∧ r.date = st.1 := by
  induction l with
  | nil =>
    intro res seen
    exact ⟨[], by simp [reconStep], by simp [reconStep], by simp, by simp⟩
  | cons p rest ih =>
    intro res seen
    by_cases h1 : p ∈ seen
    · obtain ⟨t, e1, e2, nd, hp⟩ := ih res seen
      refine ⟨t, by simpa [reconStep, h1] using e1, by simpa [reconStep, h1] using e2, nd, ?_⟩
      intro r hr
      obtain ⟨hl, hrest⟩ := hp r hr
      exact ⟨List.mem_cons_of_mem _ hl, hrest⟩
    · cases hm : pathMatchesExt ext p with
      | false =>
        obtain ⟨t, e1, e2, nd, hp⟩ := ih res seen
        refine ⟨t, by simpa [reconStep, h1, hm] using e1,
          by simpa [reconStep, h1, hm] using e2, nd, ?_⟩
        intro r hr
        obtain ⟨hl, hrest⟩ := hp r hr
        exact ⟨List.mem_cons_of_mem _ hl, hrest⟩
      | true =>
        cases hsk : shouldSkip exclude p with
        | true =>
          obtain ⟨t, e1, e2, nd, hp⟩ := ih res seen
          refine ⟨t, by simpa [reconStep, h1, hm, hsk] using e1,
            by simpa [reconStep, h1, hm, hsk] using e2, nd, ?_⟩
          intro r hr
          obtain ⟨hl, hrest⟩ := hp r hr
          exact ⟨List.mem_cons_of_mem _ hl, hrest⟩
        | false =>
          cases hh : hasHiddenDirPart p with
          | true =>
            obtain ⟨t, e1, e2, nd, hp⟩ := ih res seen
            refine ⟨t, by simpa [reconStep, h1, hm, hsk, hh] using e1,
              by simpa [reconStep, h1, hm, hsk, hh] using e2, nd, ?_⟩
            intro r hr
            obtain ⟨hl, hrest⟩ := hp r hr
            exact ⟨List.mem_cons_of_mem _ hl, hrest⟩
          | false =>
            cases hst : statPath files p with
            | none =>
              obtain ⟨t, e1, e2, nd, hp⟩ := ih res seen
              refine ⟨t, by simpa [reconStep, h1, hm, hsk, hh, hst] using e1,
                by simpa [reconStep, h1, hm, hsk, hh, hst] using e2, nd, ?_⟩
              intro r hr
              obtain ⟨hl, hrest⟩ := hp r hr
              exact ⟨List.mem_cons_of_mem _ hl, hrest⟩
            | some st =>
              cases hreg : st.2 with
              | false =>
                obtain ⟨t, e1, e2, nd, hp⟩ := ih res seen
                refine ⟨t, by simpa [reconStep, h1, hm, hsk, hh, hst, hreg] using e1,
                  by simpa [reconStep, h1, hm, hsk, hh, hst, hreg] using e2, nd, ?_⟩
                intro r hr
                obtain ⟨hl, hrest⟩ := hp r hr
                exact ⟨List.mem_cons_of_mem _ hl, hrest⟩
              | true =>
                obtain ⟨t, e1, e2, nd, hp⟩ :=
                  ih (res ++ [mkUntrackedRec p st.1]) (seen ++ [p])
                refine ⟨mkUntrackedRec p st.1 :: t, ?_, ?_, ?_, ?_⟩
                · have heq : (reconStep files exclude ext (p :: rest) res seen).1 =
                      (reconStep files exclude ext rest (res ++ [mkUntrackedRec p st.1]) (seen ++ [p])).1 := by
                    simp [reconStep, h1, hm, hsk, hh, hst, hreg]
                  rw [heq, e1, List.append_assoc]
                  rfl
                · have heq : (reconStep files exclude ext (p :: rest) res seen).2 =
                      (reconStep files exclude ext rest (res ++ [mkUntrackedRec p st.1]) (seen ++ [p])).2 := by
                    simp [reconStep, h1, hm, hsk, hh, hst, hreg]
                  rw [heq, e2, List.append_assoc]
                  rfl
                · simp only [List.map_cons, List.nodup_cons]
                  constructor
                  · intro hmem
                    obtain ⟨r, hr, hrp⟩ := List.mem_map.mp hmem
                    obtain ⟨_, hnsn, _⟩ := hp r hr
                    exact hnsn
                      (by rw [hrp]; exact List.mem_append_right seen (by simp [mkUntrackedRec]))
                  · exact nd
                · intro r hr
                  rcases List.mem_cons.mp hr with hhd | htl
                  · subst hhd
                    exact ⟨List.mem_cons_self _ _, h1, rfl, rfl, rfl, rfl, st, hst, hreg, rfl⟩
                  · obtain ⟨hl, hnsn, hrest⟩ := hp r htl
                    exact ⟨List.mem_cons_of_mem _ hl,
                      fun hc => hnsn (List.mem_append_left _ hc), hrest⟩

theorem logPairs_path_mem (lines : List LogLine) :
    ∀ (cur : Option CommitInfo) (i : CommitInfo) (p : RelPath),
    (i, p) ∈ logPairs lines cur → p ∈ logFilePaths lines := by
  induction lines with
  | nil => intro cur i p h; simp [logPairs] at h
  | cons ln rest ih =>
    intro cur i p h
    match ln, cur with
    | .commitLine (some j), _ =>
      exact ih (some j) i p (by simpa [logPairs] using h)
    | .commitLine none, cur =>
      exact ih cur i p (by simpa [logPairs] using h)
    | .fileLine q, none =>
      have := ih none i p (by simpa [logPairs] using h)
      simpa [logFilePaths] using Or.inr this
    | .fileLine q, some j =>
      have h' : (i = j ∧ p = q) ∨ (i, p) ∈ logPairs rest (some j) := by
        simpa [logPairs] using h
      rcases h' with ⟨_, hq⟩ | htl
      · simp [logFilePaths, hq]
      · have := ih (some j) i p htl
        simpa [logFilePaths] using Or.inr this

theorem logStep_spec (files : List FsFile) (exclude : List String) (ext : List String) (lines : List LogLine) :
    ∀ (cur : Option CommitInfo) (res : List ChangeRec) (seen : List RelPath),
    ∃ t : List ChangeRec,
      (logStep files exclude ext lines cur res seen).1 = res ++ t ∧
      (logStep files exclude ext lines cur res seen).2 = seen ++ t.map ChangeRec.path ∧
      (t.map ChangeRec.path).Nodup ∧
      ∀ r ∈ t, r.path ∉ seen ∧ r.untracked = false ∧
        (∃ st, statPath files r.path = some st ∧ st.2 = true ∧ r.date = st.1) ∧
        ∃ i, (i, r.path) ∈ logPairs lines cur ∧ r.hexsha = i.hexsha ∧
          r.message = i.message ∧
          r.author_name = (if i.authorName = "" then "Unknown" else i.authorName) := by
  induction lines with
  | nil =>
    intro cur res seen
    exact ⟨[], by simp [logStep], by simp [logStep], by simp, by simp⟩
  | cons ln rest ih =>
    intro cur res seen
    cases ln with
    | commitLine info =>
      cases info with
      | some j =>
        obtain ⟨t, e1, e2, nd, hp⟩ := ih (some j) res seen
        refine ⟨t, by simpa [logStep] using e1, by simpa [logStep] using e2, nd, ?_⟩
        intro r hr
        obtain ⟨hs, hu, hst, i, hpair, hrest⟩ := hp r hr
        exact ⟨hs, hu, hst, i, by simpa [logPairs] using hpair, hrest⟩
      | none =>
        obtain ⟨t, e1, e2, nd, hp⟩ := ih cur res seen
        refine ⟨t, by simpa [logStep] using e1, by simpa [logStep] using e2, nd, ?_⟩
        intro r hr
        obtain ⟨hs, hu, hst, i, hpair, hrest⟩ := hp r hr
        refine ⟨hs, hu, hst, i, ?_, hrest⟩
        cases cur with
        | none => simpa [logPairs] using hpair
        | some c => simpa [logPairs] using hpair
    | fileLine p =>
      cases cur with
      | none =>
        obtain ⟨t, e1, e2, nd, hp⟩ := ih none res seen
        refine ⟨t, by simpa [logStep] using e1, by simpa [logStep] using e2, nd, ?_⟩
        intro r hr
        obtain ⟨hs, hu, hst, i, hpair, hrest⟩ := hp r hr
        exact ⟨hs, hu, hst, i, by simpa [logPairs] using hpair, hrest⟩
      | some i =>
        by_cases hp0 : p = []
        · obtain ⟨t, e1, e2, nd, hp⟩ := ih (some i) res seen
          refine ⟨t, by simpa [logStep, hp0] using e1, by simpa [logStep, hp0] using e2, nd, ?_⟩
          intro r hr
          obtain ⟨hs, hu, hst, j, hpair, hrest⟩ := hp r hr
          exact ⟨hs, hu, hst, j, by simp [logPairs]; exact Or.inr hpair, hrest⟩
        · cases hsk : shouldSkip exclude p with
          | true =>
            obtain ⟨t, e1, e2, nd, hp⟩ := ih (some i) res seen
            refine ⟨t, by simpa [logStep, hp0, hsk] using e1,
              by simpa [logStep, hp0, hsk] using e2, nd, ?_⟩
            intro r hr
            obtain ⟨hs, hu, hst, j, hpair, hrest⟩ := hp r hr
            exact ⟨hs, hu, hst, j, by simp [logPairs]; exact Or.inr hpair, hrest⟩
          | false =>
            cases hm : pathMatchesExt ext p with
            | false =>
              obtain ⟨t, e1, e2, nd, hp⟩ := ih (some i) res seen
              refine ⟨t, by simpa [logStep, hp0, hsk, hm] using e1,
                by simpa [logStep, hp0, hsk, hm] using e2, nd, ?_⟩
              intro r hr
              obtain ⟨hs, hu, hst, j, hpair, hrest⟩ := hp r hr
              exact ⟨hs, hu, hst, j, by simp [logPairs]; exact Or.inr hpair, hrest⟩
            | true =>
              by_cases hseen : p ∈ seen
              · obtain ⟨t, e1, e2, nd, hp⟩ := ih (some i) res seen
                refine ⟨t, by simpa [logStep, hp0, hsk, hm, hseen] using e1,
                  by simpa [logStep, hp0, hsk, hm, hseen] using e2, nd, ?_⟩
                intro r hr
                obtain ⟨hs, hu, hst, j, hpair, hrest⟩ := hp r hr
                exact ⟨hs, hu, hst, j, by simp [logPairs]; exact Or.inr hpair, hrest⟩
              · cases hst : statPath files p with
                | none =>
                  obtain ⟨t, e1, e2, nd, hp⟩ := ih (some i) res seen
                  refine ⟨t, by simpa [logStep, hp0, hsk, hm, hseen, hst] using e1,
                    by simpa [logStep, hp0, hsk, hm, hseen, hst] using e2, nd, ?_⟩
                  intro r hr
                  obtain ⟨hs, hu, hst', j, hpair, hrest⟩ := hp r hr
                  exact ⟨hs, hu, hst', j, by simp [logPairs]; exact Or.inr hpair, hrest⟩
                | some st =>
                  cases hreg : st.2 with
                  | false =>
                    obtain ⟨t, e1, e2, nd, hp⟩ := ih (some i) res seen
                    refine ⟨t, by simpa [logStep, hp0, hsk, hm, hseen, hst, hreg] using e1,
                      by simpa [logStep, hp0, hsk, hm, hseen, hst, hreg] using e2, nd, ?_⟩
                    intro r hr
                    obtain ⟨hs, hu, hst', j, hpair, hrest⟩ := hp r hr
                    exact ⟨hs, hu, hst', j, by simp [logPairs]; exact Or.inr hpair, hrest⟩
                  | true =>
                    obtain ⟨t, e1, e2, nd, hp⟩ := ih (some i)
                      (res ++ [mkTrackedRec p st.1 i]) (seen ++ [p])
                    refine ⟨mkTrackedRec p st.1 i :: t, ?_, ?_, ?_, ?_⟩
                    · have heq : (logStep files exclude ext (.fileLine p :: rest) (some i) res seen).1 =
                          (logStep files exclude ext rest (some i)
                            (res ++ [mkTrackedRec p st.1 i]) (seen ++ [p])).1 := by
                        simp [logStep, hp0, hsk, hm, hseen, hst, hreg]
                      rw [heq, e1, List.append_assoc]
                      rfl
                    · have heq : (logStep files exclude ext (.fileLine p :: rest) (some i) res seen).2 =
                          (logStep files exclude ext rest (some i)
                            (res ++ [mkTrackedRec p st.1 i]) (seen ++ [p])).2 := by
                        simp [logStep, hp0, hsk, hm, hseen, hst, hreg]
                      rw [heq, e2, List.append_assoc]
                      rfl
                    · simp only [List.map_cons, List.nodup_cons]
                      refine ⟨?_, nd⟩
                      intro hmem
                      obtain ⟨r, hr, hrp⟩ := List.mem_map.mp hmem
                      obtain ⟨hnsn, _⟩ := hp r hr
                      exact hnsn
                        (by rw [hrp]; exact List.mem_append_right seen (by simp [mkTrackedRec]))
                    · intro r hr
                      rcases List.mem_cons.mp hr with hhd | htl
                      · subst hhd
                        refine ⟨hseen, rfl, ⟨st, hst, hreg, rfl⟩, i, ?_, rfl, rfl, rfl⟩
                        simp [logPairs, mkTrackedRec]
                      · obtain ⟨hnsn, hu, hst', j, hpair, hrest⟩ := hp r htl
                        refine ⟨fun hc => hnsn (List.mem_append_left _ hc), hu, hst', j,
                          ?_, hrest⟩
                        simp [logPairs]
                        exact Or.inr hpair

theorem mergedResults_eq_stages (env : RepoEnv) (exts : List String) :
    mergedResults env exts = (repoS3 env exts).1 := rfl

theorem walkResults_path_eq (env : RepoEnv) (ext : List String) (tracked : List RelPath) :
    (walkResults env ext tracked).map ChangeRec.path =
      (env.files.filter (fun f =>
        !(underFailedDir env.failedTopDirs f.path)
          && pathMatchesExt ext f.path
          && !(decide (f.path ∈ tracked))
          && dirPartsVisible env.excludeDirs f.path)).map FsFile.path := by
  simp only [walkResults, List.map_map]
  rfl

theorem walkResults_nodup (env : RepoEnv) (ext : List String) (tracked : List RelPath)
    (wf : (env.files.map FsFile.path).Nodup) :
    ((walkResults env ext tracked).map ChangeRec.path).Nodup := by
  rw [walkResults_path_eq]
  exact List.Nodup.sublist (List.Sublist.map _ (List.filter_sublist _)) wf

theorem walkResults_mem {env : RepoEnv} {ext : List String} {tracked : List RelPath}
    {r : ChangeRec} (h : r ∈ walkResults env ext tracked) :
    ∃ f ∈ env.files, r = mkUntrackedRec f.path f.mtime ∧
      underFailedDir env.failedTopDirs f.path = false ∧
      pathMatchesExt ext f.path = true ∧ f.path ∉ tracked ∧
      dirPartsVisible env.excludeDirs f.path = true := by
  simp only [walkResults, List.mem_map, List.mem_filter] at h
  obtain ⟨f, ⟨hmem, hcond⟩, hr⟩ := h
  simp only [Bool.and_eq_true, Bool.not_eq_true', decide_eq_false_iff_not] at hcond
  exact ⟨f, hmem, hr.symm, hcond.1.1.1, hcond.1.1.2, hcond.1.2, hcond.2⟩

theorem statPath_of_mem {files : List FsFile} (wf : (files.map FsFile.path).Nodup)
    {f : FsFile} (hf : f ∈ files) : statPath files f.path = some (f.mtime, f.isReg) := by
  induction files with
  | nil => cases hf
  | cons g rest ih =>
    simp only [List.map_cons, List.nodup_cons] at wf
    rcases List.mem_cons.mp hf with rfl | htl
    · simp [statPath, List.find?_cons_of_pos]
    · have hgf : (decide (g.path = f.path)) = false := by
        simp only [decide_eq_false_iff_not]
        intro he
        exact wf.1 (he ▸ List.mem_map_of_mem FsFile.path htl)
      have : statPath rest f.path = some (f.mtime, f.isReg) := ih wf.2 htl
      simpa [statPath, List.find?_cons_of_neg, hgf] using this

theorem mergedResults_spec (env : RepoEnv) (exts : List String) :
    ∃ t1 t2 t3 : List ChangeRec,
      mergedResults env exts = repoWalk env exts ++ t1 ++ t2 ++ t3 ∧
      (t1.map ChangeRec.path).Nodup ∧ (t2.map ChangeRec.path).Nodup ∧
      (t3.map ChangeRec.path).Nodup ∧
      (∀ r ∈ t1, r.path ∈ repoIta env ∧
        r.path ∉ (repoWalk env exts).map ChangeRec.path ∧
        r.untracked = true ∧ r.author_name = "" ∧ r.message = "" ∧ r.hexsha = "" ∧
        ∃ st, statPath env.files r.path = some st ∧ r.date = st.1) ∧
      (∀ r ∈ t2, r.path ∉ (repoWalk env exts).map ChangeRec.path ++ t1.map ChangeRec.path ∧
        r.untracked = false ∧
        (∃ st, statPath env.files r.path = some st ∧ st.2 = true ∧ r.date = st.1) ∧
        ∃ i, (i, r.path) ∈ logPairs (gitLogLines env) none ∧ r.hexsha = i.hexsha ∧
          r.message = i.message ∧
          r.author_name = (if i.authorName = "" then "Unknown" else i.authorName)) ∧
      (∀ r ∈ t3, r.path ∈ buildTrackedSet env ∧
        r.path ∉ (repoWalk env exts).map ChangeRec.path ++ t1.map ChangeRec.path
          ++ t2.map ChangeRec.path ∧
        r.untracked = true ∧ r.author_name = "" ∧ r.message = "" ∧ r.hexsha = "" ∧
        ∃ st, statPath env.files r.path = some st ∧ st.2 = true ∧ r.date = st.1) := by
  obtain ⟨t1, e11, e12, nd1, hp1⟩ :=
    itaStep_spec env.files env.excludeDirs (repoExtL exts) (repoIta env) (repoWalk env exts)
      ((repoWalk env exts).map ChangeRec.path)
  have e11' : (repoS1 env exts).1 = repoWalk env exts ++ t1 := e11
  have e12' : (repoS1 env exts).2 =
      (repoWalk env exts).map ChangeRec.path ++ t1.map ChangeRec.path := e12
  obtain ⟨t2, e21, e22, nd2, hp2⟩ :=
    logStep_spec env.files env.excludeDirs (repoExtL exts) (gitLogLines env) none
      (repoS1 env exts).1 (repoS1 env exts).2
  have e21' : (repoS2 env exts).1 = repoWalk env exts ++ t1 ++ t2 := by
    have : (repoS2 env exts).1 = (repoS1 env exts).1 ++ t2 := e21
    rw [this, e11']
  have e22' : (repoS2 env exts).2 =
      (repoWalk env exts).map ChangeRec.path ++ t1.map ChangeRec.path
        ++ t2.map ChangeRec.path := by
    have : (repoS2 env exts).2 = (repoS1 env exts).2 ++ t2.map ChangeRec.path := e22
    rw [this, e12']
  obtain ⟨t3, e31, e32, nd3, hp3⟩ :=
    reconStep_spec env.files env.excludeDirs (repoExtL exts) (buildTrackedSet env)
      (repoS2 env exts).1 (repoS2 env exts).2
  refine ⟨t1, t2, t3, ?_, nd1, nd2, nd3, ?_, ?_, ?_⟩
  · have : (repoS3 env exts).1 = (repoS2 env exts).1 ++ t3 := e31
    rw [mergedResults_eq_stages, this, e21']
  · intro r hr
    exact hp1 r hr
  · intro r hr
    obtain ⟨hs, hrest⟩ := hp2 r hr
    rw [e12'] at hs
    exact ⟨hs, hrest⟩
  · intro r hr
    obtain ⟨hl, hs, hrest⟩ := hp3 r hr
    rw [e22'] at hs
    exact ⟨hl, hs, hrest⟩

theorem mergedResults_nodup (env : RepoEnv) (exts : List String)
    (wf : (env.files.map FsFile.path).Nodup) :
    ((mergedResults env exts).map ChangeRec.path).Nodup := by
  obtain ⟨t1, t2, t3, heq, nd1, nd2, nd3, h1, h2, h3⟩ := mergedResults_spec env exts
  rw [heq]
  simp only [List.map_append]
  have hW : ((repoWalk env exts).map ChangeRec.path).Nodup :=
    walkResults_nodup env (repoExtL exts) (buildTrackedSet env) wf
  have hd1 : ((repoWalk env exts).map ChangeRec.path).Disjoint (t1.map ChangeRec.path) := by
    intro a ha hb
    obtain ⟨r, hr, hrp⟩ := List.mem_map.mp hb
    obtain ⟨_, hnW, _⟩ := h1 r hr
    exact hnW (hrp ▸ ha)
  have h12 : (((repoWalk env exts).map ChangeRec.path ++ t1.map ChangeRec.path)).Nodup :=
    List.nodup_append.mpr ⟨hW, nd1, hd1⟩
  have hd2 : (((repoWalk env exts).map ChangeRec.path ++ t1.map ChangeRec.path)).Disjoint
      (t2.map ChangeRec.path) := by
    intro a ha hb
    obtain ⟨r, hr, hrp⟩ := List.mem_map.mp hb
    obtain ⟨hnW, _⟩ := h2 r hr
    exact hnW (hrp ▸ ha)
  have h123 : (((repoWalk env exts).map ChangeRec.path ++ t1.map ChangeRec.path)
      ++ t2.map ChangeRec.path).Nodup :=
    List.nodup_append.mpr ⟨h12, nd2, hd2⟩
  have hd3 : (((repoWalk env exts).map ChangeRec.path ++ t1.map ChangeRec.path)
      ++ t2.map ChangeRec.path).Disjoint (t3.map ChangeRec.path) := by
    intro a ha hb
    obtain ⟨r, hr, hrp⟩ := List.mem_map.mp hb
    obtain ⟨_, hnW, _⟩ := h3 r hr
    exact hnW (hrp ▸ ha)
  exact List.nodup_append.mpr ⟨h123, nd3, hd3⟩

theorem getRecentRepo_nodup (env : RepoEnv) (limit : Nat) (exts : List String)
    (wf : (env.files.map FsFile.path).Nodup) :
    ((getRecentRepo env limit exts).map ChangeRec.path).Nodup :=
  finalize_nodup limit (mergedResults_nodup env exts wf)

theorem nodup_flatten_keyed {α β : Type _} (key : α → β) :
    ∀ (LB : List (β × List α)),
    (∀ b ∈ LB, ∀ x ∈ b.2, key x = b.1) →
    (∀ b ∈ LB, b.2.Nodup) →
    LB.Pairwise (fun a b => a.2 ≠ [] → b.2 ≠ [] → a.1 ≠ b.1) →
    ((LB.map (fun b => b.2)).flatten).Nodup := by
  intro LB
  induction LB with
  | nil => intro _ _ _; simp
  | cons b rest ih =>
    intro hk hnd hpw
    rw [List.map_cons, List.flatten_cons, List.nodup_append]
    rcases List.pairwise_cons.mp hpw with ⟨hb, hrest⟩
    refine ⟨hnd b (List.mem_cons_self _ _), ?_, ?_⟩
    · exact ih (fun b' hb' => hk b' (List.mem_cons_of_mem _ hb'))
        (fun b' hb' => hnd b' (List.mem_cons_of_mem _ hb')) hrest
    · intro a ha hafl
      obtain ⟨l, hl, hal⟩ := List.mem_flatten.mp hafl
      obtain ⟨b', hb', hbl⟩ := List.mem_map.mp hl
      have hkey1 : key a = b.1 := hk b (List.mem_cons_self _ _) a ha
      have hkey2 : key a = b'.1 := hk b' (List.mem_cons_of_mem _ hb') a (hbl ▸ hal)
      have hne1 : b.2 ≠ [] := by
        intro hc
        rw [hc] at ha
        cases ha
      have hne2 : b'.2 ≠ [] := by
        intro hc
        rw [hbl] at hc
        rw [hc] at hal
        cases hal
      exact hb b' hb' hne1 hne2 (hkey1 ▸ hkey2)

theorem childBlock_paths (limit : Nat) (exts : List String) (c : ContainerChild) :
    (childBlock limit exts c).map ChangeRec.path =
      ((getRecentRepo c.env limit exts).map ChangeRec.path).map (fun q => c.name :: q) := by
  simp only [childBlock, List.map_map]
  rfl

theorem childBlock_head (limit : Nat) (exts : List String) (c : ContainerChild) :
    ∀ q ∈ (childBlock limit exts c).map ChangeRec.path, q.head? = some c.name := by
  rw [childBlock_paths]
  intro q hq
  obtain ⟨p, _, rfl⟩ := List.mem_map.mp hq
  rfl

theorem childBlock_paths_nodup (limit : Nat) (exts : List String) (c : ContainerChild)
    (wfc : (c.env.files.map FsFile.path).Nodup) :
    ((childBlock limit exts c).map ChangeRec.path).Nodup := by
  rw [childBlock_paths]
  exact List.Nodup.map (fun a b h => (List.cons.injEq _ _ _ _ ▸ h : _ ∧ _).2)
    (getRecentRepo_nodup c.env limit exts wfc)

theorem topEntryBlock_head (env : ContainerEnv) (extL : List String) (e : TopEntry)
    (wfe : topEntryWFb (env.children.map (fun c => c.name)) e = true) :
    ∀ q ∈ (topEntryBlock env extL e).map ChangeRec.path, q.head? = some (topEntryName e) := by
  cases e with
  | fileEntry n m =>
    intro q hq
    simp only [topEntryBlock] at hq
    by_cases hm : pathMatchesExt extL [n] = true
    · simp only [hm, if_true, List.map_cons, List.map_nil] at hq
      rcases List.mem_cons.mp hq with rfl | hq'
      · rfl
      · cases hq'
    · rw [if_neg (by simpa using hm)] at hq
      cases hq
  | dirEntry n fs =>
    intro q hq
    simp only [topEntryBlock] at hq
    split at hq
    · cases hq
    · obtain ⟨r, hr, hrq⟩ := List.mem_map.mp hq
      obtain ⟨f, hf, hfr⟩ := List.mem_map.mp hr
      have hfmem := (List.mem_filter.mp hf).1
      simp only [topEntryWFb, Bool.and_eq_true, List.all_eq_true] at wfe
      have := wfe.1 f hfmem
      rw [decide_eq_true_eq] at this
      rw [← hrq, ← hfr]
      exact this

theorem topEntryBlock_paths_nodup (env : ContainerEnv) (extL : List String) (e : TopEntry)
    (wfe : topEntryWFb (env.children.map (fun c => c.name)) e = true) :
    ((topEntryBlock env extL e).map ChangeRec.path).Nodup := by
  cases e with
  | fileEntry n m =>
    simp only [topEntryBlock]
    by_cases hm : pathMatchesExt extL [n] = true
    · simp [hm]
    · rw [if_neg (by simpa using hm)]
      simp
  | dirEntry n fs =>
    simp only [topEntryBlock]
    split
    · simp
    · simp only [List.map_map]
      simp only [topEntryWFb, Bool.and_eq_true, List.all_eq_true, decide_eq_true_eq] at wfe
      have hsub : ((fs.filter (fun f =>
          pathMatchesExt extL f.path && subdirPartsVisible env.excludeDirs f.path)).map
            (ChangeRec.path ∘ fun f => mkUntrackedRec f.path f.mtime)).Sublist
          (fs.map FsFile.path) := by
        have h1 : (ChangeRec.path ∘ fun f : FsFile => mkUntrackedRec f.path f.mtime) =
            FsFile.path := rfl
        rw [h1]
        exact List.Sublist.map _ (List.filter_sublist _)
      exact List.Nodup.sublist hsub wfe.2

theorem topEntryBlock_child_name_empty (env : ContainerEnv) (extL : List String)
    (n : String) (fs : List FsFile) (hn : n ∈ env.children.map (fun c => c.name)) :
    topEntryBlock env extL (.dirEntry n fs) = [] := by
  simp [topEntryBlock, hn]

theorem getRecentContainer_nodup (env : ContainerEnv) (limit : Nat) (exts : List String)
    (wf : containerWFb env = true) :
    ((getRecentContainer env limit exts).map ChangeRec.path).Nodup := by
  simp only [containerWFb, Bool.and_eq_true, List.all_eq_true, decide_eq_true_eq] at wf
  obtain ⟨⟨⟨hcnd, hcwf⟩, hend⟩, hewf⟩ := wf
  have hgc : getRecentContainer env limit exts =
      finalize ((env.children.map (childBlock limit exts)).flatten
        ++ (env.topEntries.map (topEntryBlock env (repoExtL exts))).flatten) limit := rfl
  rw [hgc]
  apply finalize_nodup
  have hall : (((env.children.map (childBlock limit exts)).flatten
      ++ (env.topEntries.map (topEntryBlock env (repoExtL exts))).flatten).map
        ChangeRec.path)
      = (((env.children.map (fun c => ((some c.name : Option String),
          (childBlock limit exts c).map ChangeRec.path))
        ++ env.topEntries.map (fun e => ((some (topEntryName e) : Option String),
          (topEntryBlock env (repoExtL exts) e).map ChangeRec.path))).map
            (fun b => b.2)).flatten) := by
    simp only [List.map_append, List.map_flatten, List.map_map, List.flatten_append]
    rfl
  rw [hall]
  apply nodup_flatten_keyed (fun q : RelPath => q.head?)
  · intro b hb x hx
    rcases List.mem_append.mp hb with hbc | hbe
    · obtain ⟨c, hc, rfl⟩ := List.mem_map.mp hbc
      exact childBlock_head limit exts c x hx
    · obtain ⟨e, he, rfl⟩ := List.mem_map.mp hbe
      exact topEntryBlock_head env _ e (hewf e he) x hx
  · intro b hb
    rcases List.mem_append.mp hb with hbc | hbe
    · obtain ⟨c, hc, rfl⟩ := List.mem_map.mp hbc
      exact childBlock_paths_nodup limit exts c (hcwf c hc)
    · obtain ⟨e, he, rfl⟩ := List.mem_map.mp hbe
      exact topEntryBlock_paths_nodup env _ e (hewf e he)
  · rw [List.pairwise_append]
    refine ⟨?_, ?_, ?_⟩
    · rw [List.pairwise_map]
      have hp : env.children.Pairwise (fun a b => a.name ≠ b.name) :=
        List.pairwise_map.mp hcnd
      exact hp.imp (fun h _ _ => by simpa using h)
    · rw [List.pairwise_map]
      have hp : env.topEntries.Pairwise (fun a b => topEntryName a ≠ topEntryName b) :=
        List.pairwise_map.mp hend
      exact hp.imp (fun h _ _ => by simpa using h)
    · intro a ha b hb
      obtain ⟨c, hc, rfl⟩ := List.mem_map.mp ha
      obtain ⟨e, he, rfl⟩ := List.mem_map.mp hb
      intro hne1 hne2 heq
      have hname : c.name = topEntryName e := by
        simpa using heq
      cases e with
      | fileEntry n m =>
        have hwfe := hewf _ he
        simp only [topEntryWFb, Bool.not_eq_true', decide_eq_false_iff_not] at hwfe
        apply hwfe
        have hname' : c.name = n := by simpa [topEntryName] using hname
        have hmem : c.name ∈ env.children.map (fun c => c.name) :=
          List.mem_map_of_mem _ hc
        rw [hname'] at hmem
        exact hmem
      | dirEntry n fs =>
        have hn : n ∈ env.children.map (fun c => c.name) := by
          have hname' : c.name = n := by simpa [topEntryName] using hname
          have hmem : c.name ∈ env.children.map (fun c => c.name) :=
            List.mem_map_of_mem _ hc
          rw [hname'] at hmem
          exact hmem
        have hempty : topEntryBlock env (repoExtL exts) (.dirEntry n fs) = [] :=
          topEntryBlock_child_name_empty env _ n fs hn
        apply hne2
        rw [hempty]
        rfl

theorem findUntrackedMdWalk_nodup (exclude : List String) (files : List FsFile)
    (wf : (files.map FsFile.path).Nodup) :
    ((findUntrackedMdWalk exclude files).map ChangeRec.path).Nodup := by
  have hperm : (findUntrackedMdWalk exclude files).Perm
      ((files.filter (fun f =>
          pathMatchesExt [".md"] f.path && dirPartsVisible exclude f.path)).map
        (fun f => mkUntrackedRec f.path f.mtime)) :=
    List.mergeSort_perm _ _
  have hnd : (((files.filter (fun f =>
      pathMatchesExt [".md"] f.path && dirPartsVisible exclude f.path)).map
        (fun f => mkUntrackedRec f.path f.mtime)).map ChangeRec.path).Nodup := by
    rw [List.map_map]
    have hc : (ChangeRec.path ∘ fun f : FsFile => mkUntrackedRec f.path f.mtime) =
        FsFile.path := rfl
    rw [hc]
    exact List.Nodup.sublist (List.Sublist.map _ (List.filter_sublist _)) wf
  exact ((hperm.map ChangeRec.path).nodup_iff).mpr hnd

theorem getRecentPlain_nodup (exclude : List String) (files : List FsFile) (limit : Nat)
    (wf : (files.map FsFile.path).Nodup) :
    ((getRecentPlain exclude files limit).map ChangeRec.path).Nodup := by
  apply finalize_nodup
  exact List.Nodup.sublist (List.Sublist.map _ (List.filter_sublist _))
    (findUntrackedMdWalk_nodup exclude files wf)

theorem getRecentlyChangedFiles_eq_finalize (root : RootEnv) (limit : Nat)
    (exts : List String) :
    ∃ l, getRecentlyChangedFiles root limit exts = finalize l limit := by
  cases root with
  | repoRoot e => exact ⟨mergedResults e exts, rfl⟩
  | containerRoot e =>
    exact ⟨(e.children.map (childBlock limit exts)).flatten
      ++ (e.topEntries.map (topEntryBlock e (repoExtL exts))).flatten, rfl⟩
  | plainRoot ex fs =>
    exact ⟨(findUntrackedMdWalk ex fs).filter (fun r => !(shouldSkip ex r.path)), rfl⟩

theorem underFailedDir_nil (p : RelPath) : underFailedDir [] p = false := by
  match p with
  | [] => rfl
  | [_] => rfl
  | _ :: _ :: _ => simp [underFailedDir]

theorem cacheLookup_store (c : RecentCache) (k : CacheKey) (v : Nat × List ChangeRec) :
    cacheLookup (cacheStore c k v) k = some v := by
  simp [cacheLookup, cacheStore]

theorem charListLe_trans : ∀ (a b c : List Char), charListLe a b = true →
    charListLe b c = true → charListLe a c = true := by
  intro a
  induction a with
  | nil => intro b c _ _; rfl
  | cons x as ih =>
    intro b c h1 h2
    cases b with
    | nil => simp [charListLe] at h1
    | cons y bs =>
      cases c with
      | nil => simp [charListLe] at h2
      | cons z cs =>
        simp only [charListLe] at h1 h2 ⊢
        by_cases hxy : x.toNat < y.toNat
        · by_cases hyz : y.toNat < z.toNat
          · simp [show x.toNat < z.toNat by omega]
          · simp only [if_neg hyz] at h2
            by_cases hzy : z.toNat < y.toNat
            · simp [hzy] at h2
            · simp [show x.toNat < z.toNat by omega]
        · simp only [if_neg hxy] at h1
          by_cases hyx : y.toNat < x.toNat
          · simp [hyx] at h1
          · by_cases hyz : y.toNat < z.toNat
            · simp [show x.toNat < z.toNat by omega]
            · simp only [if_neg hyz] at h2
              by_cases hzy : z.toNat < y.toNat
              · simp [hzy] at h2
              · simp only [if_neg hyx] at h1
                simp only [if_neg hzy] at h2
                have hxz : ¬ x.toNat < z.toNat := by omega
                have hzx : ¬ z.toNat < x.toNat := by omega
                simp only [if_neg hxz, if_neg hzx]
                exact ih bs cs h1 h2

theorem charListLe_total : ∀ (a b : List Char),
    (charListLe a b || charListLe b a) = true := by
  intro a
  induction a with
  | nil => intro b; rfl
  | cons x as ih =>
    intro b
    cases b with
    | nil => rfl
    | cons y bs =>
      simp only [charListLe]
      by_cases hxy : x.toNat < y.toNat
      · simp [hxy]
      · by_cases hyx : y.toNat < x.toNat
        · simp [hyx]
        · simp only [if_neg hxy, if_neg hyx]
          exact ih bs

theorem pathStringLe_trans (a b c : RelPath) (h1 : pathStringLe a b = true)
    (h2 : pathStringLe b c = true) : pathStringLe a c = true :=
  charListLe_trans _ _ _ h1 h2

theorem pathStringLe_total (a b : RelPath) : (pathStringLe a b || pathStringLe b a) = true :=
  charListLe_total _ _

theorem sortedUniquePaths_nodup (l : List RelPath) : (sortedUniquePaths l).Nodup :=
  ((List.mergeSort_perm l.dedup pathStringLe).nodup_iff).mpr (List.nodup_dedup l)

theorem sortedUniquePaths_sorted (l : List RelPath) :
    (sortedUniquePaths l).Pairwise (fun a b => pathStringLe a b = true) :=
  List.sorted_mergeSort pathStringLe_trans pathStringLe_total l.dedup

theorem mem_sortedUniquePaths (l : List RelPath) (q : RelPath) :
    q ∈ sortedUniquePaths l ↔ q ∈ l := by
  unfold sortedUniquePaths
  rw [(List.mergeSort_perm l.dedup pathStringLe).mem_iff]
  exact List.mem_dedup

theorem firstGitIdx_eq_none_iff (l : List String) :
    firstGitIdx l = none ↔ ".git" ∉ l := by
  induction l with
  | nil => simp [firstGitIdx]
  | cons c rest ih =>
    by_cases hc : c = ".git"
    · subst hc
      simp [firstGitIdx]
    · simp only [firstGitIdx, if_neg hc]
      constructor
      · intro h
        have : firstGitIdx rest = none := by
          cases hr : firstGitIdx rest with
          | none => rfl
          | some i => rw [hr] at h; cases h
        intro hmem
        rcases List.mem_cons.mp hmem with he | hm
        · exact hc he.symm
        · exact (ih.mp this) hm
      · intro h
        have : ".git" ∉ rest := fun hm => h (List.mem_cons_of_mem _ hm)
        rw [ih.mpr this]
        rfl

theorem firstGitIdx_append_of_none (a b : List String) (ha : ".git" ∉ a) :
    firstGitIdx (a ++ b) = (firstGitIdx b).map (fun i => a.length + i) := by
  induction a with
  | nil => simp [Option.map_id']
  | cons c rest ih =>
    have hc : ¬ (c = ".git") := fun he => ha (he ▸ List.mem_cons_self _ _)
    have hr : ".git" ∉ rest := fun hm => ha (List.mem_cons_of_mem _ hm)
    have h1 : firstGitIdx ((c :: rest) ++ b) =
        (firstGitIdx (rest ++ b)).map (fun i => i + 1) := by
      simp [firstGitIdx, hc]
    rw [h1, ih hr]
    cases firstGitIdx b with
    | none => rfl
    | some i =>
      simp only [Option.map, List.length_cons, Option.some.injEq]
      omega

theorem reconStep_adds (files : List FsFile) (exclude : List String) (ext : List String) (l : List RelPath) :
    ∀ (res : List ChangeRec) (seen : List RelPath) (p : RelPath) (m : Nat),
    p ∈ l → p ∉ seen → pathMatchesExt ext p = true →
    shouldSkip exclude p = false → hasHiddenDirPart p = false →
    statPath files p = some (m, true) →
    ∃ r ∈ (reconStep files exclude ext l res seen).1, r.path = p ∧ r.untracked = true := by
  induction l with
  | nil =>
    intro res seen p m hp
    cases hp
  | cons q rest ih =>
    intro res seen p m hp hseen hm hsk hh hst
    by_cases hqp : q = p
    · subst hqp
      obtain ⟨t, e1, _, _, _⟩ :=
        reconStep_spec files exclude ext rest (res ++ [mkUntrackedRec q m]) (seen ++ [q])
      refine ⟨mkUntrackedRec q m, ?_, rfl, rfl⟩
      have heq : (reconStep files exclude ext (q :: rest) res seen).1 =
          (reconStep files exclude ext rest (res ++ [mkUntrackedRec q m]) (seen ++ [q])).1 := by
        simp [reconStep, hseen, hm, hsk, hh, hst]
      rw [heq, e1]
      exact List.mem_append_left _ (List.mem_append_right _ (List.mem_cons_self _ _))
    · have hprest : p ∈ rest := by
        rcases List.mem_cons.mp hp with he | hr
        · exact absurd he.symm hqp
        · exact hr
      by_cases h1 : q ∈ seen
      · have heq : (reconStep files exclude ext (q :: rest) res seen).1 =
            (reconStep files exclude ext rest res seen).1 := by
          simp [reconStep, h1]
        rw [heq]
        exact ih res seen p m hprest hseen hm hsk hh hst
      · cases hm' : pathMatchesExt ext q with
        | false =>
          have heq : (reconStep files exclude ext (q :: rest) res seen).1 =
              (reconStep files exclude ext rest res seen).1 := by
            simp [reconStep, h1, hm']
          rw [heq]
          exact ih res seen p m hprest hseen hm hsk hh hst
        | true =>
          cases hsk' : shouldSkip exclude q with
          | true =>
            have heq : (reconStep files exclude ext (q :: rest) res seen).1 =
                (reconStep files exclude ext rest res seen).1 := by
              simp [reconStep, h1, hm', hsk']
            rw [heq]
            exact ih res seen p m hprest hseen hm hsk hh hst
          | false =>
            cases hh' : hasHiddenDirPart q with
            | true =>
              have heq : (reconStep files exclude ext (q :: rest) res seen).1 =
                  (reconStep files exclude ext rest res seen).1 := by
                simp [reconStep, h1, hm', hsk', hh']
              rw [heq]
              exact ih res seen p m hprest hseen hm hsk hh hst
            | false =>
              cases hst' : statPath files q with
              | none =>
                have heq : (reconStep files exclude ext (q :: rest) res seen).1 =
                    (reconStep files exclude ext rest res seen).1 := by
                  simp [reconStep, h1, hm', hsk', hh', hst']
                rw [heq]
                exact ih res seen p m hprest hseen hm hsk hh hst
              | some st =>
                cases hreg : st.2 with
                | false =>
                  have heq : (reconStep files exclude ext (q :: rest) res seen).1 =
                      (reconStep files exclude ext rest res seen).1 := by
                    simp [reconStep, h1, hm', hsk', hh', hst', hreg]
                  rw [heq]
                  exact ih res seen p m hprest hseen hm hsk hh hst
                | true =>
                  have heq : (reconStep files exclude ext (q :: rest) res seen).1 =
                      (reconStep files exclude ext rest
                        (res ++ [mkUntrackedRec q st.1]) (seen ++ [q])).1 := by
                    simp [reconStep, h1, hm', hsk', hh', hst', hreg]
                  rw [heq]
                  refine ih (res ++ [mkUntrackedRec q st.1]) (seen ++ [q]) p m hprest ?_
                    hm hsk hh hst
                  intro hc
                  rcases List.mem_append.mp hc with hin | hq
                  · exact hseen hin
                  · rcases List.mem_cons.mp hq with he | hnil
                    · exact hqp he.symm
                    · cases hnil

theorem foldl_erase_eq_filter :
    ∀ (ds conns : List Observer), conns.Nodup →
    ds.foldl (fun acc d => acc.erase d) conns =
      conns.filter (fun x => !(decide (x ∈ ds))) := by
  intro ds
  induction ds with
  | nil =>
    intro conns _
    simp
  | cons d ds ih =>
    intro conns h
    simp only [List.foldl_cons]
    rw [ih (conns.erase d) (h.erase d), List.Nodup.erase_eq_filter h d, List.filter_filter]
    apply List.filter_congr
    intro x _
    by_cases h1 : x = d
    · subst h1
      simp
    · by_cases h2 : x ∈ ds
      · simp [h1, h2]
      · simp [h1, h2]

theorem stateFile_not_md (x : String) (hx : isGitStateFileName x = true) :
    pathMatchesExt WATCHED_EXTENSIONS [x] = false := by
  simp only [isGitStateFileName, GIT_STATE_FILES, decide_eq_true_eq, List.mem_cons,
    List.mem_singleton, List.not_mem_nil, or_false] at hx
  rcases hx with rfl | rfl | rfl | rfl | rfl <;> decide

theorem lastIsStateFile_not_matches (p : RelPath) (hl : lastIsStateFile p = true) :
    pathMatchesExt WATCHED_EXTENSIONS p = false := by
  cases hlast : p.getLast? with
  | none => simp [pathMatchesExt, hlast]
  | some x =>
    have hx : isGitStateFileName x = true := by
      simpa [lastIsStateFile, hlast] using hl
    have := stateFile_not_md x hx
    simp only [pathMatchesExt, List.getLast?_singleton] at this
    simp only [pathMatchesExt, hlast]
    exact this

theorem dotgit_mem_ignoreDirs : ".git" ∈ defaultIgnoreDirNames := by decide

theorem combinedEventAccepts_no_git (root : List String) (p : RelPath)
    (hroot : ∀ c ∈ root, c ∉ defaultIgnoreDirNames) (hg : ".git" ∉ p) :
    (combinedEventAccepts root p = true ↔
      (pathMatchesExt WATCHED_EXTENSIONS p = true ∧ ∀ c ∈ p, c ∉ defaultIgnoreDirNames)) := by
  have hgr : ".git" ∉ root := fun hm => hroot _ hm dotgit_mem_ignoreDirs
  have hnone : firstGitIdx (root ++ p) = none := by
    rw [firstGitIdx_eq_none_iff]
    intro hm
    rcases List.mem_append.mp hm with h | h
    · exact hgr h
    · exact hg h
  have hhead : decide (p.head? = some ".git") = false := by
    rw [decide_eq_false_iff_not]
    intro hh
    cases p with
    | nil => cases hh
    | cons a t =>
      have : a = ".git" := by simpa using hh
      exact hg (this ▸ List.mem_cons_self a t)
  have hrel : isRelevant p = pathMatchesExt WATCHED_EXTENSIONS p := by
    simp [isRelevant, hhead]
  have hroots : root.all (fun c => !(decide (c ∈ defaultIgnoreDirNames))) = true := by
    rw [List.all_eq_true]
    intro c hc
    simpa using hroot c hc
  simp only [combinedEventAccepts, gitAwareFilterAccepts, hnone, hrel,
    defaultFilterAccepts, List.all_append, hroots, Bool.true_and, Bool.and_eq_true,
    List.all_eq_true, Bool.not_eq_true', decide_eq_false_iff_not]
  constructor
  · intro ⟨h1, h2⟩
    exact ⟨h2, h1⟩
  · intro ⟨h1, h2⟩
    exact ⟨h2, h1⟩

theorem combinedEventAccepts_git (root : List String) (p : RelPath)
    (hroot : ∀ c ∈ root, c ∉ defaultIgnoreDirNames) (hg : ".git" ∈ p) :
    (combinedEventAccepts root p = true ↔
      ∃ m, p = [".git", m] ∧ m ∈ GIT_STATE_FILES) := by
  have hgr : ".git" ∉ root := fun hm => hroot _ hm dotgit_mem_ignoreDirs
  obtain ⟨j, hj⟩ : ∃ j, firstGitIdx p = some j := by
    cases hfi : firstGitIdx p with
    | none => exact absurd hg ((firstGitIdx_eq_none_iff p).mp hfi)
    | some j => exact ⟨j, rfl⟩
  have habs : firstGitIdx (root ++ p) = some (root.length + j) := by
    rw [firstGitIdx_append_of_none root p hgr, hj]
    rfl
  have hpne : p ≠ [] := by
    intro h
    rw [h] at hg
    cases hg
  have hlast : lastIsStateFile (root ++ p) = lastIsStateFile p := by
    simp [lastIsStateFile, List.getLast?_append_of_ne_nil root hpne]
  constructor
  · intro h
    simp only [combinedEventAccepts, gitAwareFilterAccepts, habs, Bool.and_eq_true,
      decide_eq_true_eq] at h
    obtain ⟨⟨hlen, hstate⟩, hrelv⟩ := h
    rw [hlast] at hstate
    rw [List.length_append] at hlen
    have hplen : p.length = j + 2 := by omega
    have hmd : pathMatchesExt WATCHED_EXTENSIONS p = false :=
      lastIsStateFile_not_matches p hstate
    have hhead : p.head? = some ".git" := by
      simp only [isRelevant, hmd, Bool.false_or, Bool.and_eq_true,
        decide_eq_true_eq] at hrelv
      exact hrelv.1.2
    cases p with
    | nil => exact absurd rfl hpne
    | cons a t =>
      have ha : a = ".git" := by simpa using hhead
      have hj0 : j = 0 := by
        rw [ha] at hj
        have hcz : firstGitIdx (".git" :: t) = some 0 := by simp [firstGitIdx]
        rw [hcz] at hj
        exact (Option.some.inj hj).symm
      rw [hj0] at hplen
      cases t with
      | nil => simp at hplen
      | cons b t2 =>
        cases t2 with
        | nil =>
          refine ⟨b, by rw [ha], ?_⟩
          have hb : isGitStateFileName b = true := by
            simpa [lastIsStateFile] using hstate
          simpa [isGitStateFileName] using hb
        | cons c t3 => simp at hplen
  · rintro ⟨m, rfl, hm⟩
    have hcomp : firstGitIdx ([".git", m] : List String) = some 0 := by
      simp [firstGitIdx]
    have hj0 : j = 0 := by
      rw [hcomp] at hj
      exact (Option.some.inj hj).symm
    subst hj0
    have h1 : (root ++ [".git", m]).length = root.length + 0 + 2 := by
      rw [List.length_append]
      simp
    have h2 : lastIsStateFile ([".git", m] : List String) = true := by
      simp [lastIsStateFile, isGitStateFileName, hm]
    have h3 : isRelevant ([".git", m] : List String) = true := by
      simp [isRelevant, lastIsStateFile, isGitStateFileName, hm]
    simp [combinedEventAccepts, gitAwareFilterAccepts, habs, hlast, h1, h2, h3]

/-- C1: for every call to the aggregator `get_recently_changed_files
(limit, extensions)` — in any of the three root modes — the returned
sequence has length at most `limit`, and for every pair of returned
records `a` before `b`, `a`'s timestamp (the `date` field) is greater
than or equal to `b`'s. -/
theorem claim_C1 (root : RootEnv) (limit : Nat) (exts : List String) :
    (getRecentlyChangedFiles root limit exts).length ≤ limit ∧
    (getRecentlyChangedFiles root limit exts).Pairwise (fun a b => b.date ≤ a.date) := by
  obtain ⟨l, hl⟩ := getRecentlyChangedFiles_eq_finalize root limit exts
  rw [hl]
  exact ⟨finalize_length_le l limit, finalize_pairwise l limit⟩

/-- C2: for every call to `get_recently_changed_files`, no relative
path appears in more than one record of the returned sequence, in each
of the three modes (git-backed root, container of child repositories,
plain un-versioned directory); the hypothesis is filesystem
well-formedness — the walk-visible file entries have pairwise distinct
relative paths. -/
theorem claim_C2 (root : RootEnv) (limit : Nat) (exts : List String)
    (wf : rootWFb root = true) :
    ((getRecentlyChangedFiles root limit exts).map ChangeRec.path).Nodup := by
  cases root with
  | repoRoot e => exact getRecentRepo_nodup e limit exts (by simpa [rootWFb] using wf)
  | containerRoot e =>
    exact getRecentContainer_nodup e limit exts (by simpa [rootWFb] using wf)
  | plainRoot ex fs => exact getRecentPlain_nodup ex fs limit (by simpa [rootWFb] using wf)

theorem claim_C2_witness :
    rootWFb (.containerRoot wEnvContainer) = true ∧
    ((getRecentlyChangedFiles (.containerRoot wEnvContainer) 10 [".md"]).map
      ChangeRec.path).Nodup :=
  ⟨by decide, claim_C2 (.containerRoot wEnvContainer) 10 [".md"] (by decide)⟩

/-- C3: every file that is staged with intent-to-add — present in the
version-control index (`git ls-files`) but with no entry in the
revision history window — is surfaced by `get_recently_changed_files`
classified `untracked=True`: the pre-truncation merged result contains
a record for it with `untracked=True`, and every returned record
carrying its path has `untracked=True`, even though the underlying
tool lists the file in the index. -/
theorem claim_C3 (env : RepoEnv) (limit : Nat) (exts : List String) (p : RelPath) (m : Nat)
    (htr : p ∈ buildTrackedSet env)
    (hnolog : p ∉ logFilePaths (gitLogLines env))
    (hext : pathMatchesExt (repoExtL exts) p = true)
    (hskip : shouldSkip env.excludeDirs p = false)
    (hhid : hasHiddenDirPart p = false)
    (hstat : statPath env.files p = some (m, true)) :
    (∃ r ∈ mergedResults env exts, r.path = p ∧ r.untracked = true) ∧
    (∀ r ∈ getRecentRepo env limit exts, r.path = p → r.untracked = true) := by
  obtain ⟨t1, e11, e12, nd1, hp1⟩ :=
    itaStep_spec env.files env.excludeDirs (repoExtL exts) (repoIta env) (repoWalk env exts)
      ((repoWalk env exts).map ChangeRec.path)
  obtain ⟨t2, e21, e22, nd2, hp2⟩ :=
    logStep_spec env.files env.excludeDirs (repoExtL exts) (gitLogLines env) none
      (repoS1 env exts).1 (repoS1 env exts).2
  have e1a : (repoS1 env exts).1 = repoWalk env exts ++ t1 := e11
  have e1b : (repoS1 env exts).2 =
      (repoWalk env exts).map ChangeRec.path ++ t1.map ChangeRec.path := e12
  have e2a : (repoS2 env exts).1 = (repoS1 env exts).1 ++ t2 := e21
  have e2b : (repoS2 env exts).2 = (repoS1 env exts).2 ++ t2.map ChangeRec.path := e22
  obtain ⟨t3, e31, e32, nd3, hp3⟩ :=
    reconStep_spec env.files env.excludeDirs (repoExtL exts) (buildTrackedSet env)
      (repoS2 env exts).1 (repoS2 env exts).2
  have e3a : (repoS3 env exts).1 = (repoS2 env exts).1 ++ t3 := e31
  have hmerged : mergedResults env exts = ((repoWalk env exts ++ t1) ++ t2) ++ t3 := by
    rw [mergedResults_eq_stages, e3a, e2a, e1a]
  have hwalkp : p ∉ (repoWalk env exts).map ChangeRec.path := by
    intro hmem
    obtain ⟨r, hr, hrp⟩ := List.mem_map.mp hmem
    obtain ⟨f, hf, hrf, _, _, hnt, _⟩ := walkResults_mem hr
    apply hnt
    have hfp : f.path = p := by
      rw [← hrp, hrf]
      rfl
    rw [hfp]
    exact htr
  constructor
  · by_cases hseen2 : p ∈ (repoS2 env exts).2
    · rw [e2b, e1b] at hseen2
      rcases List.mem_append.mp hseen2 with h12 | h2
      · rcases List.mem_append.mp h12 with hW | h1
        · exact absurd hW hwalkp
        · obtain ⟨r, hr, hrp⟩ := List.mem_map.mp h1
          obtain ⟨_, _, hru, _⟩ := hp1 r hr
          refine ⟨r, ?_, hrp, hru⟩
          rw [hmerged]
          exact List.mem_append_left _ (List.mem_append_left _ (List.mem_append_right _ hr))
      · obtain ⟨r, hr, hrp⟩ := List.mem_map.mp h2
        obtain ⟨_, _, _, i, hpair, _⟩ := hp2 r hr
        exact absurd (logPairs_path_mem _ none i p (hrp ▸ hpair)) hnolog
    · obtain ⟨r, hr, hrest⟩ :=
        reconStep_adds env.files env.excludeDirs (repoExtL exts) (buildTrackedSet env)
          (repoS2 env exts).1 (repoS2 env exts).2 p m htr hseen2 hext hskip hhid hstat
      refine ⟨r, ?_, hrest⟩
      rw [mergedResults_eq_stages]
      exact hr
  · intro r hr hrp
    have hrm : r ∈ mergedResults env exts := mem_of_mem_finalize hr
    rw [hmerged] at hrm
    rcases List.mem_append.mp hrm with h123 | h3
    · rcases List.mem_append.mp h123 with h12 | h2
      · rcases List.mem_append.mp h12 with hW | h1
        · obtain ⟨f, hf, hrf, _⟩ := walkResults_mem hW
          rw [hrf]
          rfl
        · exact (hp1 r h1).2.2.1
      · obtain ⟨_, _, _, i, hpair, _⟩ := hp2 r h2
        exact absurd (logPairs_path_mem _ none i p (hrp ▸ hpair)) hnolog
    · exact (hp3 r h3).2.2.1

theorem claim_C3_witness :
    (["b.md"] ∈ buildTrackedSet wEnvRepo ∧
     ["b.md"] ∉ logFilePaths (gitLogLines wEnvRepo) ∧
     pathMatchesExt (repoExtL [".md"]) ["b.md"] = true ∧
     shouldSkip wEnvRepo.excludeDirs ["b.md"] = false ∧
     hasHiddenDirPart ["b.md"] = false ∧
     statPath wEnvRepo.files ["b.md"] = some (7, true)) ∧
    ((∃ r ∈ mergedResults wEnvRepo [".md"], r.path = ["b.md"] ∧ r.untracked = true) ∧
     (∀ r ∈ getRecentRepo wEnvRepo 10 [".md"], r.path = ["b.md"] → r.untracked = true)) :=
  ⟨by decide,
   claim_C3 wEnvRepo 10 [".md"] ["b.md"] 7 (by decide) (by decide) (by decide) (by decide)
     (by decide) (by decide)⟩

/-- C4: in every record returned by `get_recently_changed_files` (git
mode), the timestamp (`date`) equals the file's filesystem modification
time as reported by `os.stat` — not the revision-control authoring
time — and the `author_name`/`message`/`hexsha` fields are populated
from a matching log entry only when the record is tracked
(`untracked=False`); every untracked record has all three empty. -/
theorem claim_C4 (env : RepoEnv) (limit : Nat) (exts : List String)
    (wf : (env.files.map FsFile.path).Nodup) :
    ∀ r ∈ getRecentRepo env limit exts,
      (∃ st, statPath env.files r.path = some st ∧ r.date = st.1) ∧
      (r.untracked = true → r.author_name = "" ∧ r.message = "" ∧ r.hexsha = "") ∧
      (r.untracked = false → ∃ i, (i, r.path) ∈ logPairs (gitLogLines env) none ∧
        r.hexsha = i.hexsha ∧ r.message = i.message ∧
        r.author_name = (if i.authorName = "" then "Unknown" else i.authorName)) := by
  obtain ⟨t1, t2, t3, heq, nd1, nd2, nd3, h1, h2, h3⟩ := mergedResults_spec env exts
  intro r hr
  have hrm : r ∈ mergedResults env exts := mem_of_mem_finalize hr
  rw [heq] at hrm
  rcases List.mem_append.mp hrm with h123 | ht3
  · rcases List.mem_append.mp h123 with h12 | ht2
    · rcases List.mem_append.mp h12 with hW | ht1
      · obtain ⟨f, hf, hrf, _⟩ := walkResults_mem hW
        subst hrf
        refine ⟨⟨(f.mtime, f.isReg), statPath_of_mem wf hf, rfl⟩,
          fun _ => ⟨rfl, rfl, rfl⟩, fun hc => ?_⟩
        simp [mkUntrackedRec] at hc
      · obtain ⟨_, _, hu, ha, hm', hx, st, hst, hdate⟩ := h1 r ht1
        exact ⟨⟨st, hst, hdate⟩, fun _ => ⟨ha, hm', hx⟩, fun hc => by simp [hu] at hc⟩
    · obtain ⟨_, hu, ⟨st, hst, _, hdate⟩, i, hpair, hx, hm', hauth⟩ := h2 r ht2
      refine ⟨⟨st, hst, hdate⟩, fun hc => by simp [hu] at hc,
        fun _ => ⟨i, hpair, hx, hm', hauth⟩⟩
  · obtain ⟨_, _, hu, ha, hm', hx, st, hst, _, hdate⟩ := h3 r ht3
    exact ⟨⟨st, hst, hdate⟩, fun _ => ⟨ha, hm', hx⟩, fun hc => by simp [hu] at hc⟩

theorem claim_C4_witness :
    ((wEnvRepo.files.map FsFile.path).Nodup) ∧
    (∀ r ∈ getRecentRepo wEnvRepo 10 [".md"],
      (∃ st, statPath wEnvRepo.files r.path = some st ∧ r.date = st.1) ∧
      (r.untracked = true → r.author_name = "" ∧ r.message = "" ∧ r.hexsha = "") ∧
      (r.untracked = false → ∃ i, (i, r.path) ∈ logPairs (gitLogLines wEnvRepo) none ∧
        r.hexsha = i.hexsha ∧ r.message = i.message ∧
        r.author_name = (if i.authorName = "" then "Unknown" else i.authorName))) :=
  ⟨by decide, claim_C4 wEnvRepo 10 [".md"] (by decide)⟩

/-- C5: `get_recently_changed_files` never propagates an underlying
failure: the embedding is a total function, and a failed tool
invocation (`git ls-files`, `git status`, `git log`) is equivalent at
the point of use to a successful invocation returning no data, while a
failed parallel scan worker only removes that worker's directory
subtree from the scan source — so the call still returns a (possibly
partial) result. -/
theorem claim_C5 (env : RepoEnv) (limit : Nat) (exts : List String) :
    (getRecentRepo { env with lsFiles := .error () } limit exts
      = getRecentRepo { env with lsFiles := .ok [] } limit exts) ∧
    (getRecentRepo { env with statusLines := .error () } limit exts
      = getRecentRepo { env with statusLines := .ok [] } limit exts) ∧
    (getRecentRepo { env with logLines := .error () } limit exts
      = getRecentRepo { env with logLines := .ok [] } limit exts) ∧
    (walkResults env (repoExtL exts) (buildTrackedSet env)
      = walkResults { env with
          files := env.files.filter (fun f => !(underFailedDir env.failedTopDirs f.path)),
          failedTopDirs := [] } (repoExtL exts) (buildTrackedSet env)) := by
  refine ⟨rfl, rfl, rfl, ?_⟩
  simp only [walkResults, List.filter_filter]
  have hfc : ∀ f ∈ env.files,
      (!(underFailedDir env.failedTopDirs f.path)
        && pathMatchesExt (repoExtL exts) f.path
        && !(decide (f.path ∈ buildTrackedSet env))
        && dirPartsVisible env.excludeDirs f.path)
      = ((!(underFailedDir [] f.path)
          && pathMatchesExt (repoExtL exts) f.path
          && !(decide (f.path ∈ buildTrackedSet env))
          && dirPartsVisible env.excludeDirs f.path)
        && !(underFailedDir env.failedTopDirs f.path)) := by
    intro f _
    rw [underFailedDir_nil]
    cases underFailedDir env.failedTopDirs f.path <;>
      cases pathMatchesExt (repoExtL exts) f.path <;>
        cases decide (f.path ∈ buildTrackedSet env) <;>
          cases dirPartsVisible env.excludeDirs f.path <;> rfl
  rw [List.filter_congr hfc]

/-- C6: a second `get_recently_changed_files` call with the same key
(root path string, limit, extensions) within the TTL of a prior call's
store, with no flush in between, returns the stored value without
recomputing: its result is identical to the first call's and it leaves
the cache untouched. -/
theorem claim_C6 (root : RootEnv) (rp : String) (limit : Nat) (exts : List String)
    (cache : RecentCache) (t0 t0' t2 : Nat)
    (hmiss : cacheLookup cache (rp, limit, exts) = none)
    (httl : t2 - t0' < RECENT_FILES_TTL) :
    getRecentlyChangedFilesCached root rp limit exts
        (getRecentlyChangedFilesCached root rp limit exts cache t0 t0').2 t2 t2
      = ((getRecentlyChangedFilesCached root rp limit exts cache t0 t0').1,
         (getRecentlyChangedFilesCached root rp limit exts cache t0 t0').2) := by
  have h1 : getRecentlyChangedFilesCached root rp limit exts cache t0 t0' =
      (getRecentlyChangedFiles root limit exts,
       cacheStore cache (rp, limit, exts)
         (t0', getRecentlyChangedFiles root limit exts)) := by
    simp [getRecentlyChangedFilesCached, hmiss]
  rw [h1]
  simp [getRecentlyChangedFilesCached, cacheLookup_store, httl]

theorem claim_C6_witness :
    (cacheLookup [] ("/repo", 5, [".md"]) = none ∧ 1 - 0 < RECENT_FILES_TTL) ∧
    getRecentlyChangedFilesCached (.plainRoot [] []) "/repo" 5 [".md"]
        ((getRecentlyChangedFilesCached (.plainRoot [] []) "/repo" 5 [".md"] [] 0 0).2) 1 1
      = ((getRecentlyChangedFilesCached (.plainRoot [] []) "/repo" 5 [".md"] [] 0 0).1,
         (getRecentlyChangedFilesCached (.plainRoot [] []) "/repo" 5 [".md"] [] 0 0).2) :=
  ⟨⟨by decide, by decide⟩,
   claim_C6 (.plainRoot [] []) "/repo" 5 [".md"] [] 0 0 1 (by decide) (by decide)⟩

/-- C7: at every flush of the watcher's pending batch (the batch is
non-empty): if any pending path is a version-control state-marker file
the entire recent-files TTL cache is cleared (and it is untouched
otherwise); exactly one notification is emitted, containing the
sorted, de-duplicated pending path list and the repository identifier
when one is watched under a name; and afterwards the pending state is
empty and the batch-start instant cleared (back to idle). -/
theorem claim_C7 (s : WatchState) (rn : Option String) (cache : RecentCache)
    (hne : s.pending ≠ []) :
    ((flushBatch s rn cache).2.2).length = 1 ∧
    (∀ m ∈ (flushBatch s rn cache).2.2,
      m.paths = sortedUniquePaths s.pending ∧ m.repoName = rn ∧
      m.paths.Nodup ∧ m.paths.Pairwise (fun a b => pathStringLe a b = true) ∧
      (∀ q, q ∈ m.paths ↔ q ∈ s.pending)) ∧
    (s.pending.any isGitStateChange = true → (flushBatch s rn cache).2.1 = []) ∧
    (s.pending.any isGitStateChange = false → (flushBatch s rn cache).2.1 = cache) ∧
    (flushBatch s rn cache).1.pending = [] ∧
    (flushBatch s rn cache).1.batchStart = none := by
  have hco : coalesceAndBroadcast s.pending rn cache =
      ([{ paths := sortedUniquePaths s.pending, repoName := rn }],
       if s.pending.any isGitStateChange then [] else cache) := by
    simp [coalesceAndBroadcast, hne, clearRecentFilesCache]
  have hfl : flushBatch s rn cache =
      ({ pending := [], batchStart := none },
       (if s.pending.any isGitStateChange then [] else cache),
       [{ paths := sortedUniquePaths s.pending, repoName := rn }]) := by
    simp [flushBatch, hco]
  rw [hfl]
  refine ⟨rfl, ?_, ?_, ?_, rfl, rfl⟩
  · intro m hm
    rcases List.mem_cons.mp hm with rfl | h
    · exact ⟨rfl, rfl, sortedUniquePaths_nodup _, sortedUniquePaths_sorted _,
        fun q => mem_sortedUniquePaths _ q⟩
    · cases h
  · intro h
    simp [h]
  · intro h
    simp [h]

theorem claim_C7_witness :
    ((⟨[[".git", "index"], ["a.md"], ["a.md"]], some 3⟩ : WatchState).pending ≠ []) ∧
    (((flushBatch ⟨[[".git", "index"], ["a.md"], ["a.md"]], some 3⟩ (some "repo")
        [(("k", 1, [".md"]), (0, []))]).2.2).length = 1 ∧
     (∀ m ∈ (flushBatch ⟨[[".git", "index"], ["a.md"], ["a.md"]], some 3⟩ (some "repo")
        [(("k", 1, [".md"]), (0, []))]).2.2,
      m.paths = sortedUniquePaths [[".git", "index"], ["a.md"], ["a.md"]] ∧
      m.repoName = some "repo" ∧
      m.paths.Nodup ∧ m.paths.Pairwise (fun a b => pathStringLe a b = true) ∧
      (∀ q, q ∈ m.paths ↔ q ∈ [[".git", "index"], ["a.md"], ["a.md"]])) ∧
     ([[".git", "index"], ["a.md"], ["a.md"]].any isGitStateChange = true →
       (flushBatch ⟨[[".git", "index"], ["a.md"], ["a.md"]], some 3⟩ (some "repo")
        [(("k", 1, [".md"]), (0, []))]).2.1 = []) ∧
     ([[".git", "index"], ["a.md"], ["a.md"]].any isGitStateChange = false →
       (flushBatch ⟨[[".git", "index"], ["a.md"], ["a.md"]], some 3⟩ (some "repo")
        [(("k", 1, [".md"]), (0, []))]).2.1 = [(("k", 1, [".md"]), (0, []))]) ∧
     (flushBatch ⟨[[".git", "index"], ["a.md"], ["a.md"]], some 3⟩ (some "repo")
        [(("k", 1, [".md"]), (0, []))]).1.pending = [] ∧
     (flushBatch ⟨[[".git", "index"], ["a.md"], ["a.md"]], some 3⟩ (some "repo")
        [(("k", 1, [".md"]), (0, []))]).1.batchStart = none) :=
  ⟨by decide,
   claim_C7 ⟨[[".git", "index"], ["a.md"], ["a.md"]], some 3⟩ (some "repo")
     [(("k", 1, [".md"]), (0, []))] (by decide)⟩

/-- C8 counterexample: the path `child/.git/index` is exactly one
segment below a control directory with a state-marker filename, so the
claimed condition accepts it, but the implementation rejects it
(`_is_relevant` requires the first segment to be `.git`). -/
theorem claim_C8_counterexample :
    specClaimedAccepts ["child", ".git", "index"] = true ∧
    combinedEventAccepts ["srv", "repo"] ["child", ".git", "index"] = false :=
  ⟨by decide, by decide⟩

/-- C8 (amended): for a watched root whose own absolute-path segments
are not conventionally-excluded names, the event filtering (watch
filter combined with the relevance check) accepts a changed path iff
either its extension is in the watched set and no segment of the path
is a conventionally-excluded directory name (`.git` included), or the
path is exactly two segments long, its first segment is the
control directory `.git` at the watched root, and its filename is one
of the state markers; every other path inside any control-directory
subtree — including markers under a nested control directory — is
rejected. -/
theorem claim_C8_amended (root : List String) (p : RelPath)
    (hroot : ∀ c ∈ root, c ∉ defaultIgnoreDirNames) :
    combinedEventAccepts root p = true ↔
      ((pathMatchesExt WATCHED_EXTENSIONS p = true ∧ ∀ c ∈ p, c ∉ defaultIgnoreDirNames)
        ∨ ∃ m, p = [".git", m] ∧ m ∈ GIT_STATE_FILES) := by
  by_cases hg : ".git" ∈ p
  · rw [combinedEventAccepts_git root p hroot hg]
    constructor
    · exact Or.inr
    · rintro (⟨_, hall⟩ | hr)
      · exact absurd dotgit_mem_ignoreDirs (hall ".git" hg)
      · exact hr
  · rw [combinedEventAccepts_no_git root p hroot hg]
    constructor
    · exact Or.inl
    · rintro (hl | ⟨m, rfl, _⟩)
      · exact hl
      · exact absurd (List.mem_cons_self _ _) hg

theorem claim_C8_witness :
    combinedEventAccepts ["home"] ["notes", "a.md"] = true ↔
      ((pathMatchesExt WATCHED_EXTENSIONS ["notes", "a.md"] = true ∧
        ∀ c ∈ (["notes", "a.md"] : RelPath), c ∉ defaultIgnoreDirNames)
        ∨ ∃ m, (["notes", "a.md"] : RelPath) = [".git", m] ∧ m ∈ GIT_STATE_FILES) :=
  claim_C8_amended ["home"] ["notes", "a.md"] (by decide)

/-- C9: `broadcast(message)` attempts delivery to every observer in
the connection list in order; exactly the observers whose delivery
failed are removed (each failing observer and only those), and a
single failure never aborts the rest of the broadcast — the remaining
list is the original list restricted to the successful observers, and
the success count matches. -/
theorem claim_C9 (conns : List Observer) (sendOk : Observer → Bool) (hnd : conns.Nodup) :
    (broadcast conns sendOk).attempted = conns ∧
    (broadcast conns sendOk).remaining = conns.filter sendOk ∧
    (broadcast conns sendOk).sentCount = (conns.filter sendOk).length := by
  by_cases hc : conns = []
  · subst hc
    simp [broadcast]
  · have hb : broadcast conns sendOk =
        { attempted := conns, sentCount := (conns.filter sendOk).length,
          remaining := (conns.filter (fun c => !(sendOk c))).foldl
            (fun acc d => acc.erase d) conns } := by
      simp [broadcast, hc]
    rw [hb]
    refine ⟨rfl, ?_, rfl⟩
    rw [foldl_erase_eq_filter _ conns hnd]
    apply List.filter_congr
    intro x hx
    by_cases hok : sendOk x = true
    · have hnd2 : x ∉ conns.filter (fun c => !(sendOk c)) := by
        intro hmem
        have := (List.mem_filter.mp hmem).2
        simp [hok] at this
      simp [hnd2, hok]
    · have hd : x ∈ conns.filter (fun c => !(sendOk c)) :=
        List.mem_filter.mpr ⟨hx, by simp [hok]⟩
      simp only [Bool.not_eq_true] at hok
      simp [hd, hok]

theorem claim_C9_witness :
    ([⟨0⟩, ⟨1⟩, ⟨2⟩] : List Observer).Nodup ∧
    ((broadcast [⟨0⟩, ⟨1⟩, ⟨2⟩] (fun o => decide (o.obsId ≠ 1))).attempted
        = [⟨0⟩, ⟨1⟩, ⟨2⟩] ∧
     (broadcast [⟨0⟩, ⟨1⟩, ⟨2⟩] (fun o => decide (o.obsId ≠ 1))).remaining
        = ([⟨0⟩, ⟨1⟩, ⟨2⟩] : List Observer).filter (fun o => decide (o.obsId ≠ 1)) ∧
     (broadcast [⟨0⟩, ⟨1⟩, ⟨2⟩] (fun o => decide (o.obsId ≠ 1))).sentCount
        = (([⟨0⟩, ⟨1⟩, ⟨2⟩] : List Observer).filter (fun o => decide (o.obsId ≠ 1))).length) :=
  ⟨by decide, claim_C9 [⟨0⟩, ⟨1⟩, ⟨2⟩] (fun o => decide (o.obsId ≠ 1)) (by decide)⟩

/-- C10: the watcher classifies an event as a version-control state
change only when the path's first segment relative to the watched root
is exactly `.git`; for every path whose control directory is nested
deeper (`pre ++ [".git", marker]` with non-empty `pre`), the low-level
watch filter accepts the event but the state-change check returns
false and the relevance check rejects it, so the event never enters
the pending batch (and hence can never cause a cache flush). -/
theorem claim_C10 :
    (∀ q : RelPath, isGitStateChange q = true → q.head? = some ".git") ∧
    ∀ (root pre : List String) (m : String) (s : WatchState),
      pre ≠ [] → ".git" ∉ pre → (∀ c ∈ root, c ∉ defaultIgnoreDirNames) →
      m ∈ GIT_STATE_FILES →
      gitAwareFilterAccepts (root ++ (pre ++ [".git", m])) = true ∧
      isGitStateChange (pre ++ [".git", m]) = false ∧
      isRelevant (pre ++ [".git", m]) = false ∧
      addEvent s (pre ++ [".git", m]) = s := by
  constructor
  · intro q hq
    simp only [isGitStateChange, Bool.and_eq_true, decide_eq_true_eq] at hq
    exact hq.1.2
  · intro root pre m s hpre hgpre hroot hm
    have hgr : ".git" ∉ root := fun hmem => hroot _ hmem dotgit_mem_ignoreDirs
    have hgrp : ".git" ∉ root ++ pre := by
      intro hmem
      rcases List.mem_append.mp hmem with h | h
      · exact hgr h
      · exact hgpre h
    have hassoc : root ++ (pre ++ [".git", m]) = (root ++ pre) ++ [".git", m] :=
      (List.append_assoc root pre [".git", m]).symm
    have hidx : firstGitIdx ((root ++ pre) ++ [".git", m]) =
        some ((root ++ pre).length + 0) := by
      rw [firstGitIdx_append_of_none (root ++ pre) [".git", m] hgrp]
      simp [firstGitIdx]
    have hlast2 : ((root ++ pre) ++ [".git", m]).getLast? = some m := by
      rw [List.getLast?_append_of_ne_nil (root ++ pre) (by simp)]
      rfl
    have hplast : (pre ++ [".git", m]).getLast? = some m := by
      rw [List.getLast?_append_of_ne_nil pre (by simp)]
      rfl
    have hhead : (pre ++ [".git", m]).head? = pre.head? := by
      cases pre with
      | nil => exact absurd rfl hpre
      | cons a t => rfl
    have hheadne : decide ((pre ++ [".git", m]).head? = some ".git") = false := by
      rw [decide_eq_false_iff_not, hhead]
      cases pre with
      | nil => exact absurd rfl hpre
      | cons a t =>
        intro hh
        have ha : a = ".git" := by simpa using hh
        apply hgpre
        rw [ha]
        exact List.mem_cons_self _ _
    have hmd : pathMatchesExt WATCHED_EXTENSIONS (pre ++ [".git", m]) = false := by
      have hstm : lastIsStateFile (pre ++ [".git", m]) = true := by
        simp [lastIsStateFile, hplast, isGitStateFileName, hm]
      exact lastIsStateFile_not_matches _ hstm
    have hchg : isGitStateChange (pre ++ [".git", m]) = false := by
      simp only [isGitStateChange, hheadne, Bool.and_false, Bool.false_and]
    have hrel : isRelevant (pre ++ [".git", m]) = false := by
      simp only [isRelevant, hmd, hheadne, Bool.and_false, Bool.false_and, Bool.false_or]
    refine ⟨?_, hchg, hrel, ?_⟩
    · rw [hassoc]
      simp only [gitAwareFilterAccepts, hidx]
      have hlen : ((root ++ pre) ++ [".git", m]).length = (root ++ pre).length + 0 + 2 := by
        rw [List.length_append]
        simp
      have hstate2 : lastIsStateFile ((root ++ pre) ++ [".git", m]) = true := by
        simp [lastIsStateFile, hlast2, isGitStateFileName, hm]
      rw [hlen, hstate2]
      simp
    · simp [addEvent, hrel]

theorem claim_C10_witness :
    ((["child"] : List String) ≠ [] ∧ ".git" ∉ (["child"] : List String) ∧
     (∀ c ∈ (["srv"] : List String), c ∉ defaultIgnoreDirNames) ∧
     "index" ∈ GIT_STATE_FILES) ∧
    (gitAwareFilterAccepts (["srv"] ++ (["child"] ++ [".git", "index"])) = true ∧
     isGitStateChange (["child"] ++ [".git", "index"]) = false ∧
     isRelevant (["child"] ++ [".git", "index"]) = false ∧
     addEvent ⟨[], none⟩ (["child"] ++ [".git", "index"]) = ⟨[], none⟩) :=
  ⟨⟨by decide, by decide, by decide, by decide⟩,
   claim_C10.2 ["srv"] ["child"] "index" ⟨[], none⟩ (by decide) (by decide) (by decide)
     (by decide)⟩
